import Mathlib

/-!
Shallow embedding of the client-side deepfake detector
(`analyzeImageForDeepfake` and its helper analyzers).

The source operates on a `Uint8ClampedArray` of RGBA bytes obtained from a
canvas (`pixels.length = 4 * width * height`) and on JS `number`s; we embed
byte buffers as `List ℕ` and real arithmetic as exact `ℚ`.  The one place
where the source's floating point semantics is observable is the
out-of-range array read in `detectCompressionArtifacts` (an out-of-bounds
JS index yields `undefined`, the variance becomes `NaN`, and every
comparison against `NaN` is false); we model that with `Option ℚ` values
(`none` = `NaN`/`undefined`) in exactly that analyzer, where it can occur.
`calculateCorrelation` in the source returns `|num| / √(sumX2·sumY2)`
(with `0` when the denominator is `0`); `ℚ` has no square root, so we embed
the square of that nonnegative value and compare against squared
thresholds, which is order-equivalent.
-/

set_option maxHeartbeats 1000000
set_option maxRecDepth 8000

namespace Veritas

/-- `calculateVariance` from the source: population variance, `0` for the
empty list. -/
def calculateVariance (values : List ℚ) : ℚ :=
  if values.length = 0 then 0 else
    let mean := values.sum / (values.length : ℚ)
    (values.map (fun val => (val - mean) ^ 2)).sum / (values.length : ℚ)

/-- The inner loop of `checkPeriodicity`: the number of indices
`i ∈ [period, length)` whose value differs from the one `period` places
earlier by less than the `0.05` threshold. -/
def periodMatches (values : List ℚ) (period : ℕ) : ℕ :=
  ((List.range (values.length - period)).map (· + period)).countP
    (fun i => decide (|values.getD i 0 - values.getD (i - period) 0| < 0.05))

/-- `checkPeriodicity` from the source: scan candidate periods
`1 .. length/2`; if the match ratio for some period exceeds `0.8` the score
is raised to `0.9`, otherwise it stays `0`.  Lists shorter than 4 score 0. -/
def checkPeriodicity (values : List ℚ) : ℚ :=
  if values.length < 4 then 0 else
    ((List.range (values.length / 2)).map (· + 1)).foldl
      (fun score period =>
        if (periodMatches values period : ℚ) / ((values.length : ℚ) - (period : ℚ)) > 0.8
        then max score 0.9 else score) 0

/-- The luma extraction loop at the top of `analyzeFrequencyDomain`:
channels are normalized to `[0,1]` and combined with the fixed luma
coefficients.  (The buffers handed to the analyzers by the engine always
have length `4*width*height`, so the channel reads are in range.) -/
def lumaOf (pixels : List ℕ) : List ℚ :=
  (List.range ((pixels.length + 3) / 4)).map (fun j =>
    let r : ℚ := (pixels.getD (4 * j) 0 : ℚ) / 255
    let g : ℚ := (pixels.getD (4 * j + 1) 0 : ℚ) / 255
    let b : ℚ := (pixels.getD (4 * j + 2) 0 : ℚ) / 255
    0.299 * r + 0.587 * g + 0.114 * b)

/-- The grayscale extraction loop of `detectCompressionArtifacts` and
`analyzeTextureConsistency`: same coefficients applied to the raw bytes,
divided by 255 at the end (identical values, written as in the source). -/
def grayOf (pixels : List ℕ) : List ℚ :=
  (List.range ((pixels.length + 3) / 4)).map (fun j =>
    let r : ℚ := (pixels.getD (4 * j) 0 : ℚ)
    let g : ℚ := (pixels.getD (4 * j + 1) 0 : ℚ)
    let b : ℚ := (pixels.getD (4 * j + 2) 0 : ℚ)
    (0.299 * r + 0.587 * g + 0.114 * b) / 255)

/-- The iteration values of a JS loop `for (v = 0; v < limit; v += step)`. -/
def stride0 (step limit : ℕ) : List ℕ :=
  (List.range ((limit + step - 1) / step)).map (· * step)

/-- The iteration values of the JS loop `for (v = 8; v < limit; v += 8)`
used for block boundaries in `detectCompressionArtifacts`. -/
def stride8 (limit : ℕ) : List ℕ :=
  (List.range ((limit + 7) / 8 - 1)).map (fun k => (k + 1) * 8)

/-- The block/region gathering loops: the `size×size` window of a row-major
grid of the given width, anchored at `(bx, by)`, flattened row by row. -/
def blockAt (grid : List ℚ) (width byi bxi size : ℕ) : List ℚ :=
  (List.range size).flatMap (fun y =>
    (List.range size).map (fun x => grid.getD ((byi + y) * width + (bxi + x)) 0))

/-- `analyzeFrequencyDomain` from the source: every 8×8 luma block scanned
by the loops `for (by = 0; by < height-8; by += 8)` / `for (bx = 0;
bx < width-8; bx += 8)` contributes `0.1` when its variance is below `0.01`
or its periodicity exceeds `0.7`; the result is `min(1, total/10)`. -/
def analyzeFrequencyDomain (pixels : List ℕ) (width height : ℕ) : ℚ :=
  let luma := lumaOf pixels
  let frequencyScore :=
    ((stride0 8 (height - 8)).map (fun byi =>
      ((stride0 8 (width - 8)).map (fun bxi =>
        let block := blockAt luma width byi bxi 8
        if calculateVariance block < 0.01 ∨ checkPeriodicity block > 0.7
        then (0.1 : ℚ) else 0)).sum)).sum
  min 1 (frequencyScore / 10)

/-- A 4-sample window of grayscale reads starting at `start`, as JS sees it:
an out-of-bounds read is `undefined`, embedded as `none`. -/
def windowAt (gray : List ℚ) (start : ℕ) : List (Option ℚ) :=
  (List.range 4).map (fun i => gray.get? (start + i))

/-- `none` (= a JS `undefined` read) poisons the whole list, exactly as it
poisons every arithmetic result downstream in JS. -/
def seqOpt : List (Option ℚ) → Option (List ℚ)
  | [] => some []
  | none :: _ => none
  | some a :: rest => (seqOpt rest).map (a :: ·)

/-- Variance of a sample window: `NaN` (= `none`) as soon as any read was
out of bounds, since in JS the mean and every deviation become `NaN`. -/
def varianceO (l : List (Option ℚ)) : Option ℚ :=
  (seqOpt l).map calculateVariance

/-- The body of the double loop of `detectCompressionArtifacts`: the
boundary window at row `byi`, and the window two rows inside, are compared;
a `NaN` variance makes the `>` comparison false, so such a boundary never
fires. -/
def boundaryHit (gray : List ℚ) (width byi bxi : ℕ) : Bool :=
  let boundary := windowAt gray (byi * width + bxi)
  let inside := windowAt gray ((byi + 2) * width + bxi)
  match varianceO boundary, varianceO inside with
  | some bv, some iv => decide (|bv - iv| > 0.05)
  | _, _ => false

/-- `detectCompressionArtifacts` from the source: each firing interior 8×8
block boundary adds `0.05`; the result is `min(1, total)`. -/
def detectCompressionArtifacts (pixels : List ℕ) (width height : ℕ) : ℚ :=
  let gray := grayOf pixels
  let artifactScore :=
    ((stride8 height).map (fun byi =>
      ((stride8 width).map (fun bxi =>
        if boundaryHit gray width byi bxi then (0.05 : ℚ) else 0)).sum)).sum
  min 1 artifactScore

/-- `countEdges` from the source: adjacent-difference edges above the `0.1`
threshold, counted over interior columns of the row-major region. -/
def countEdges (region : List ℚ) (regionSize : ℕ) : ℕ :=
  ((List.range (region.length - 2)).map (· + 1)).countP (fun i =>
    decide (0 < i % regionSize) && decide (i % regionSize < regionSize - 1) &&
      decide (|region.getD i 0 - region.getD (i - 1) 0| > 0.1))

/-- `analyzeTextureConsistency` from the source: 64×64 regions scanned by
`for (ry = 0; ry < height-64; ry += 64)` / `for (rx = 0; rx < width-64;
rx += 64)`; a smooth region (variance `< 0.01` and edge count `< 32`) adds
`0.1`; if the variance of the per-region variances is `< 0.02` a flat `0.2`
is added; the result is `min(1, total)`. -/
def analyzeTextureConsistency (pixels : List ℕ) (width height : ℕ) : ℚ :=
  let gray := grayOf pixels
  let rowStarts := stride0 64 (height - 64)
  let colStarts := stride0 64 (width - 64)
  let smoothScore :=
    (rowStarts.map (fun ry =>
      (colStarts.map (fun rx =>
        let region := blockAt gray width ry rx 64
        if calculateVariance region < 0.01 ∧ (countEdges region 64 : ℚ) < (64 : ℚ) / 2
        then (0.1 : ℚ) else 0)).sum)).sum
  let regions := rowStarts.flatMap (fun ry =>
    colStarts.map (fun rx => calculateVariance (blockAt gray width ry rx 64)))
  let textureScore :=
    smoothScore + (if calculateVariance regions < 0.02 then (0.2 : ℚ) else 0)
  min 1 textureScore

/-- The channel sampling loop of `detectColorAnomalies`: the first
`min(pixels.length/4, 1000)` pixels' channel `offset`, normalized. -/
def channelSamples (pixels : List ℕ) (offset : ℕ) : List ℚ :=
  (List.range (min (pixels.length / 4) 1000)).map (fun i =>
    (pixels.getD (4 * i + offset) 0 : ℚ) / 255)

/-- The square of the source's `calculateCorrelation` (which returns
`|numerator| / √(sumX2·sumY2)`, and `0` on length mismatch, emptiness, or a
zero denominator).  Squaring is order-preserving on these nonnegative
values, so the analyzer's threshold comparisons are squared alongside.
Arithmetic is exact here, and on one class of inputs that departs from the
program: binary64 accumulation of a constant channel's mean can be inexact
(e.g. 1000 copies of `128/255`), leaving equal nonzero deviations in every
position, so the program computes exactly `1.0` where this definition's
zero-denominator guard returns `0`.  The two agree when the constant sums
exactly (channels of `0` or `255`, empty lists) and on non-constant
channels; anything proved below about a constant channel's branch holds
only for the exact reading and is quoted by no claim theorem. -/
def calculateCorrelationSq (x y : List ℚ) : ℚ :=
  if x.length ≠ y.length ∨ x.length = 0 then 0 else
    let meanX := x.sum / (x.length : ℚ)
    let meanY := y.sum / (y.length : ℚ)
    let numerator := ((x.zip y).map (fun p => (p.1 - meanX) * (p.2 - meanY))).sum
    let sumX2 := (x.map (fun v => (v - meanX) ^ 2)).sum
    let sumY2 := (y.map (fun v => (v - meanY) ^ 2)).sum
    if sumX2 * sumY2 = 0 then 0 else numerator ^ 2 / (sumX2 * sumY2)

/-- `detectColorAnomalies` from the source: `+0.3` when some channel pair
correlates above `0.95`, `+0.2` when some pair correlates below `0.3`;
result `min(1, total)`. -/
def detectColorAnomalies (pixels : List ℕ) : ℚ :=
  let rValues := channelSamples pixels 0
  let gValues := channelSamples pixels 1
  let bValues := channelSamples pixels 2
  let rgCorrSq := calculateCorrelationSq rValues gValues
  let rbCorrSq := calculateCorrelationSq rValues bValues
  let gbCorrSq := calculateCorrelationSq gValues bValues
  let colorScore :=
    (if rgCorrSq > 0.95 ^ 2 ∨ rbCorrSq > 0.95 ^ 2 ∨ gbCorrSq > 0.95 ^ 2
     then (0.3 : ℚ) else 0) +
    (if rgCorrSq < 0.3 ^ 2 ∨ rbCorrSq < 0.3 ^ 2 ∨ gbCorrSq < 0.3 ^ 2
     then (0.2 : ℚ) else 0)
  min 1 colorScore

/-- The `riskLevel` union type of `DeepfakeAnalysisResult`. -/
inductive RiskLevel
  | low
  | medium
  | high
deriving DecidableEq, Repr

/-- The `details` record of `DeepfakeAnalysisResult` (integer percentages). -/
structure AnalysisDetails where
  frequencyAnomaly : ℤ
  compressionArtifacts : ℤ
  textureInconsistency : ℤ
  colorAnomalies : ℤ
deriving DecidableEq, Repr

/-- The result record returned by `analyzeImageForDeepfake`. -/
structure DeepfakeAnalysisResult where
  isFake : Bool
  confidence : ℤ
  riskLevel : RiskLevel
  details : AnalysisDetails
deriving DecidableEq, Repr

/-- JS `Math.round`: round half away from zero upward (`⌊q + 1/2⌋`). -/
def roundQ (q : ℚ) : ℤ := ⌊q + 1 / 2⌋

/-- The `weights` record of `analyzeImageForDeepfake`. -/
def weightFrequency : ℚ := 0.35
/-- Compression weight. -/
def weightCompression : ℚ := 0.25
/-- Texture weight. -/
def weightTexture : ℚ := 0.25
/-- Color weight. -/
def weightColor : ℚ := 0.15

/-- The `combinedScore` computed by `analyzeImageForDeepfake`. -/
def combinedScore (pixels : List ℕ) (width height : ℕ) : ℚ :=
  analyzeFrequencyDomain pixels width height * weightFrequency +
    detectCompressionArtifacts pixels width height * weightCompression +
    analyzeTextureConsistency pixels width height * weightTexture +
    detectColorAnomalies pixels * weightColor

/-- The (pre-rounding) `confidence` local of `analyzeImageForDeepfake`:
`Math.min(100, Math.max(0, combinedScore * 100))`. -/
def confidenceRaw (pixels : List ℕ) (width height : ℕ) : ℚ :=
  min 100 (max 0 (combinedScore pixels width height * 100))

/-- The analysis pipeline of `analyzeImageForDeepfake` after the canvas has
produced the RGBA buffer: the four analyzer scores are combined by weighted
sum, clamped, classified, and rounded into the result record. -/
def analyzeImageForDeepfake (pixels : List ℕ) (width height : ℕ) :
    DeepfakeAnalysisResult :=
  let frequencyAnomaly := analyzeFrequencyDomain pixels width height
  let compressionArtifacts := detectCompressionArtifacts pixels width height
  let textureInconsistency := analyzeTextureConsistency pixels width height
  let colorAnomalies := detectColorAnomalies pixels
  let confidence := confidenceRaw pixels width height
  { isFake := decide (confidence > 50)
    confidence := roundQ confidence
    riskLevel :=
      if confidence > 70 then RiskLevel.high
      else if confidence > 40 then RiskLevel.medium
      else RiskLevel.low
    details :=
      { frequencyAnomaly := roundQ (frequencyAnomaly * 100)
        compressionArtifacts := roundQ (compressionArtifacts * 100)
        textureInconsistency := roundQ (textureInconsistency * 100)
        colorAnomalies := roundQ (colorAnomalies * 100) } }

/-- A `width×height` RGBA buffer (row-major, alpha 255) whose pixel at
`(x, y)` has the RGB triple `f x y`; the layout of `ImageData.data`. -/
def pixelsOfFun (w h : ℕ) (f : ℕ → ℕ → ℕ × ℕ × ℕ) : List ℕ :=
  (List.range (w * h)).flatMap (fun j =>
    [(f (j % w) (j / w)).1, (f (j % w) (j / w)).2.1, (f (j % w) (j / w)).2.2, 255])

/-- A uniform single-color image, every pixel `(v, v, v, 255)`. -/
def uniformPixels (w h v : ℕ) : List ℕ :=
  pixelsOfFun w h (fun _ _ => (v, v, v))

/-- The luma of one RGB triple, as computed elementwise by `lumaOf`. -/
def lumaVal (t : ℕ × ℕ × ℕ) : ℚ :=
  0.299 * ((t.1 : ℚ) / 255) + 0.587 * ((t.2.1 : ℚ) / 255) + 0.114 * ((t.2.2 : ℚ) / 255)

/-- The grayscale of one RGB triple, as computed elementwise by `grayOf`. -/
def grayVal (t : ℕ × ℕ × ℕ) : ℚ :=
  (0.299 * (t.1 : ℚ) + 0.587 * (t.2.1 : ℚ) + 0.114 * (t.2.2 : ℚ)) / 255

/-- The Frequency-Pattern analyzer as §4.3 of the spec words it: the luma
grid is partitioned into non-overlapping 8×8 blocks and only trailing
rows/columns that do not fill a block are dropped, i.e. every block with
`by + 8 ≤ height` and `bx + 8 ≤ width` is scanned (`by < height - 7` in
ℕ); increments and normalization as in the source. -/
def frequencyDomainSpec (pixels : List ℕ) (width height : ℕ) : ℚ :=
  let luma := lumaOf pixels
  let frequencyScore :=
    ((stride0 8 (height - 7)).map (fun byi =>
      ((stride0 8 (width - 7)).map (fun bxi =>
        let block := blockAt luma width byi bxi 8
        if calculateVariance block < 0.01 ∨ checkPeriodicity block > 0.7
        then (0.1 : ℚ) else 0)).sum)).sum
  min 1 (frequencyScore / 10)

/-- First base color of the alternating counterexample images. -/
def altA : ℕ × ℕ × ℕ := (128, 128, 64)

/-- Second base color: `0.299·128 + 0.587·128 + 0.114·64
= 0.299·129 + 0.587·97 + 0.114·221 = 120.704`, so `altA` and `altB` have
exactly equal luma while differing in every channel.  All analyzers that
read luma/grayscale see a constant grid, yet the sampled channel lists are
non-constant and pairwise affine, so every channel pair correlates at
exactly `1` in exact arithmetic and within one ulp of `1.0` in the
program's binary64 arithmetic: both semantics take the `>0.95` branch. -/
def altB : ℕ × ℕ × ℕ := (129, 97, 221)

/-- RGB triple of the alternating base pattern at `(x, y)`: `altB` on odd
columns, `altA` on even ones. -/
def altFun (x _y : ℕ) : ℕ × ℕ × ℕ := if x % 2 = 1 then altB else altA

/-- The 40×184 RGBA buffer of the C3 image: 22×4 scanned frequency blocks,
all firing on the constant-luma grid. -/
def alt40Pixels : List ℕ := pixelsOfFun 40 184 altFun

/-- The five special rows of the C4 image. -/
def fiveRows : List ℕ := [80, 160, 240, 320, 400]

/-- RGB triple of the C4 image at `(x, y)`: the alternating base pattern
everywhere except columns 8–11 of the five special rows, which alternate
black/white so that the compression boundary windows there have variance
`1/4`. -/
def alt16Fun (x y : ℕ) : ℕ × ℕ × ℕ :=
  if y ∈ fiveRows ∧ 8 ≤ x ∧ x ≤ 11 then
    (if x % 2 = 1 then (255, 255, 255) else (0, 0, 0))
  else altFun x y

/-- The 16×792 RGBA buffer of the C4 image. -/
def alt16Pixels : List ℕ := pixelsOfFun 16 792 alt16Fun

/-- Byte values of the noise block: `(i² + 51·i) mod 256`, an aperiodic
high-variance 8×8 pattern. -/
def noiseByte (i : ℕ) : ℕ := (i * i + 51 * i) % 256

/-- The 64 luma values of the noise block, row-major. -/
def noiseBlockList : List ℚ :=
  (List.range 64).map (fun i => ((noiseByte i : ℕ) : ℚ) / 255)

/-- RGB triple of the §8 noise-scenario image: the aperiodic noise block in
the single sampled 8×8 block (the analyzer's loops scan only `(0,0)` for a
16×16 image), gray 128 elsewhere. -/
def noiseFun (x y : ℕ) : ℕ × ℕ × ℕ :=
  if x < 8 ∧ y < 8 then
    (noiseByte (y * 8 + x), noiseByte (y * 8 + x), noiseByte (y * 8 + x))
  else (128, 128, 128)

/-- The 16×16 RGBA buffer of the noise image. -/
def noisePixels : List ℕ := pixelsOfFun 16 16 noiseFun

/-! ### List toolkit -/

lemma getD_map_range {α : Type} (g : ℕ → α) (n j : ℕ) (d : α) (h : j < n) :
    ((List.range n).map g).getD j d = g j := by
  rw [List.getD_eq_getElem?_getD]
  simp [List.getElem?_map, List.getElem?_range, h]

lemma length_flatMap_range {α : Type} (g : ℕ → List α) (s : ℕ)
    (hs : ∀ j, (g j).length = s) : ∀ n, ((List.range n).flatMap g).length = n * s := by
  intro n
  induction n with
  | zero => simp
  | succ n ih =>
    rw [List.range_succ, List.flatMap_append, List.length_append, ih]
    simp [hs, Nat.succ_mul]

lemma flatMap_range_getD {α : Type} (g : ℕ → List α) (s : ℕ)
    (hs : ∀ j, (g j).length = s) (n j c : ℕ) (hj : j < n) (hc : c < s) (d : α) :
    ((List.range n).flatMap g).getD (s * j + c) d = (g j).getD c d := by
  induction n with
  | zero => omega
  | succ n ih =>
    rw [List.range_succ, List.flatMap_append]
    rcases Nat.lt_or_ge j n with hlt | hge
    · rw [List.getD_append]
      · exact ih hlt
      · rw [length_flatMap_range g s hs n]
        calc s * j + c < s * j + s := by omega
          _ = s * (j + 1) := by ring
          _ ≤ s * n := Nat.mul_le_mul_left s (by omega)
          _ = n * s := Nat.mul_comm s n
    · have hj' : j = n := by omega
      subst hj'
      rw [List.getD_append_right]
      · rw [length_flatMap_range g s hs j]
        have hc' : s * j + c - j * s = c := by
          rw [Nat.mul_comm]; omega
        rw [hc']
        simp
      · rw [length_flatMap_range g s hs j, Nat.mul_comm]
        omega

lemma sum_map_const_of {α : Type} (l : List α) (f : α → ℚ) (c : ℚ)
    (h : ∀ x ∈ l, f x = c) : (l.map f).sum = (l.length : ℚ) * c := by
  induction l with
  | nil => simp
  | cons a t ih =>
    have ha := h a (by simp)
    have ht := ih (fun x hx => h x (by simp [hx]))
    simp only [List.map_cons, List.sum_cons, ha, ht, List.length_cons]
    push_cast
    ring

lemma sum_const_of {l : List ℚ} {c : ℚ} (h : ∀ x ∈ l, x = c) :
    l.sum = (l.length : ℚ) * c := by
  have := sum_map_const_of l id c (by simpa using h)
  simpa using this

lemma calculateVariance_const (l : List ℚ) (c : ℚ) (h : ∀ x ∈ l, x = c) :
    calculateVariance l = 0 := by
  unfold calculateVariance
  rcases Nat.eq_zero_or_pos l.length with h0 | hpos
  · simp [h0]
  · have hne : (l.length : ℚ) ≠ 0 := by positivity
    have hsum := sum_const_of h
    have hmean : l.sum / (l.length : ℚ) = c := by
      rw [hsum]; field_simp
    have hz : (l.map (fun val => (val - l.sum / (l.length : ℚ)) ^ 2)).sum = 0 := by
      rw [sum_map_const_of _ _ 0]
      · ring
      · intro x hx
        rw [hmean, h x hx]
        ring
    simp only [Nat.pos_iff_ne_zero.mp hpos, if_false]
    rw [hz]
    simp

lemma mem_blockAt {grid : List ℚ} {w byi bxi s : ℕ} {e : ℚ}
    (he : e ∈ blockAt grid w byi bxi s) :
    ∃ y < s, ∃ x < s, e = grid.getD ((byi + y) * w + (bxi + x)) 0 := by
  simp only [blockAt, List.mem_flatMap, List.mem_map, List.mem_range] at he
  obtain ⟨y, hy, x, hx, hval⟩ := he
  exact ⟨y, hy, x, hx, hval.symm⟩

lemma getD_eq_of_lt (l : List ℚ) (i : ℕ) (d : ℚ) (hi : i < l.length) :
    l.getD i d ∈ l := by
  rw [List.getD_eq_getElem?_getD, List.getElem?_eq_getElem hi]
  exact List.getElem_mem hi

lemma countEdges_const (l : List ℚ) (c : ℚ) (s : ℕ) (h : ∀ x ∈ l, x = c) :
    countEdges l s = 0 := by
  unfold countEdges
  rw [List.countP_eq_zero]
  intro i hi
  simp only [List.mem_map, List.mem_range] at hi
  obtain ⟨k, hk, hki⟩ := hi
  subst hki
  have h1 : l.getD (k + 1) 0 = c := h _ (getD_eq_of_lt l (k + 1) 0 (by omega))
  have h2 : l.getD (k + 1 - 1) 0 = c := h _ (getD_eq_of_lt l k 0 (by omega))
  simp only [h1, h2, sub_self, abs_zero]
  norm_num

/-! ### Pixel access lemmas -/

lemma lumaVal_eq_grayVal (t : ℕ × ℕ × ℕ) : lumaVal t = grayVal t := by
  unfold lumaVal grayVal; ring

lemma lumaVal_gray (v : ℕ) : lumaVal (v, v, v) = (v : ℚ) / 255 := by
  unfold lumaVal
  push_cast
  ring

lemma pixelsOfFun_length (w h : ℕ) (f : ℕ → ℕ → ℕ × ℕ × ℕ) :
    (pixelsOfFun w h f).length = w * h * 4 := by
  unfold pixelsOfFun
  exact length_flatMap_range
    (fun j => [(f (j % w) (j / w)).1, (f (j % w) (j / w)).2.1,
      (f (j % w) (j / w)).2.2, 255]) 4 (fun _ => rfl) (w * h)

lemma pixelsOfFun_getD (w h : ℕ) (f : ℕ → ℕ → ℕ × ℕ × ℕ) (j c d : ℕ)
    (hj : j < w * h) (hc : c < 4) :
    (pixelsOfFun w h f).getD (4 * j + c) d =
      [(f (j % w) (j / w)).1, (f (j % w) (j / w)).2.1,
        (f (j % w) (j / w)).2.2, 255].getD c d := by
  unfold pixelsOfFun
  exact flatMap_range_getD
    (fun j => [(f (j % w) (j / w)).1, (f (j % w) (j / w)).2.1,
      (f (j % w) (j / w)).2.2, 255]) 4 (fun _ => rfl) (w * h) j c hj hc d

lemma lumaOf_length (pixels : List ℕ) :
    (lumaOf pixels).length = (pixels.length + 3) / 4 := by
  simp [lumaOf]

lemma grayOf_length (pixels : List ℕ) :
    (grayOf pixels).length = (pixels.length + 3) / 4 := by
  simp [grayOf]

lemma lumaOf_pixelsOfFun_getD (w h : ℕ) (f : ℕ → ℕ → ℕ × ℕ × ℕ) (j : ℕ)
    (hj : j < w * h) :
    (lumaOf (pixelsOfFun w h f)).getD j 0 = lumaVal (f (j % w) (j / w)) := by
  unfold lumaOf
  have hct : ((pixelsOfFun w h f).length + 3) / 4 = w * h := by
    rw [pixelsOfFun_length]; omega
  rw [hct, getD_map_range _ _ _ _ hj]
  have h0 : (pixelsOfFun w h f).getD (4 * j) 0 = (f (j % w) (j / w)).1 := by
    have := pixelsOfFun_getD w h f j 0 0 hj (by norm_num)
    simpa using this
  have h1 : (pixelsOfFun w h f).getD (4 * j + 1) 0 = (f (j % w) (j / w)).2.1 := by
    simpa using pixelsOfFun_getD w h f j 1 0 hj (by norm_num)
  have h2 : (pixelsOfFun w h f).getD (4 * j + 2) 0 = (f (j % w) (j / w)).2.2 := by
    simpa using pixelsOfFun_getD w h f j 2 0 hj (by norm_num)
  rw [h0, h1, h2]
  rfl

lemma grayOf_pixelsOfFun_getD (w h : ℕ) (f : ℕ → ℕ → ℕ × ℕ × ℕ) (j : ℕ)
    (hj : j < w * h) :
    (grayOf (pixelsOfFun w h f)).getD j 0 = grayVal (f (j % w) (j / w)) := by
  unfold grayOf
  have hct : ((pixelsOfFun w h f).length + 3) / 4 = w * h := by
    rw [pixelsOfFun_length]; omega
  rw [hct, getD_map_range _ _ _ _ hj]
  have h0 : (pixelsOfFun w h f).getD (4 * j) 0 = (f (j % w) (j / w)).1 := by
    simpa using pixelsOfFun_getD w h f j 0 0 hj (by norm_num)
  have h1 : (pixelsOfFun w h f).getD (4 * j + 1) 0 = (f (j % w) (j / w)).2.1 := by
    simpa using pixelsOfFun_getD w h f j 1 0 hj (by norm_num)
  have h2 : (pixelsOfFun w h f).getD (4 * j + 2) 0 = (f (j % w) (j / w)).2.2 := by
    simpa using pixelsOfFun_getD w h f j 2 0 hj (by norm_num)
  rw [h0, h1, h2]
  rfl

lemma lumaOf_uniform_getD (w h v j : ℕ) (hj : j < w * h) :
    (lumaOf (uniformPixels w h v)).getD j 0 = (v : ℚ) / 255 := by
  rw [uniformPixels, lumaOf_pixelsOfFun_getD w h _ j hj, lumaVal_gray]

lemma grayOf_uniform_getD (w h v j : ℕ) (hj : j < w * h) :
    (grayOf (uniformPixels w h v)).getD j 0 = (v : ℚ) / 255 := by
  rw [uniformPixels, grayOf_pixelsOfFun_getD w h _ j hj, ← lumaVal_eq_grayVal,
    lumaVal_gray]

/-! ### Stride bounds -/

lemma mem_stride0 {s limit a : ℕ} (ha : a ∈ stride0 s limit) :
    ∃ k, k < (limit + s - 1) / s ∧ a = k * s := by
  simp only [stride0, List.mem_map, List.mem_range] at ha
  obtain ⟨k, hk, rfl⟩ := ha
  exact ⟨k, hk, rfl⟩

lemma mem_stride0_bound {s m a : ℕ} (ha : a ∈ stride0 s (m - s)) :
    a + s ≤ m := by
  obtain ⟨k, hk, rfl⟩ := mem_stride0 ha
  rcases Nat.lt_or_ge m s with hm | hm
  · have hz : m - s = 0 := by omega
    rw [hz] at hk
    rw [Nat.div_eq_of_lt (by omega)] at hk
    omega
  · have he : m - s + s - 1 = m - 1 := by omega
    rw [he] at hk
    have h2 : (k + 1) * s ≤ ((m - 1) / s) * s :=
      Nat.mul_le_mul_right s (Nat.succ_le_of_lt hk)
    have h3 : ((m - 1) / s) * s ≤ m - 1 := Nat.div_mul_le_self _ _
    have h4 : (k + 1) * s = k * s + s := by ring
    omega

lemma mem_stride8 {m a : ℕ} (ha : a ∈ stride8 m) :
    ∃ k, k < (m + 7) / 8 - 1 ∧ a = (k + 1) * 8 := by
  simp only [stride8, List.mem_map, List.mem_range] at ha
  obtain ⟨k, hk, rfl⟩ := ha
  exact ⟨k, hk, rfl⟩

lemma mem_stride8_bound {m a : ℕ} (ha : a ∈ stride8 m) : a + 8 ≤ m + 7 ∧ a % 8 = 0 := by
  obtain ⟨k, hk, rfl⟩ := mem_stride8 ha
  constructor
  · have h2 : (k + 2) * 8 ≤ ((m + 7) / 8) * 8 := by
      apply Nat.mul_le_mul_right
      omega
    have h3 : ((m + 7) / 8) * 8 ≤ m + 7 := Nat.div_mul_le_self _ _
    have h4 : (k + 2) * 8 = (k + 1) * 8 + 8 := by ring
    omega
  · omega

lemma rowcol_lt {row col w h : ℕ} (hr : row < h) (hc : col < w) :
    row * w + col < w * h := by
  have h1 : row * w + col < (row + 1) * w := by
    have : (row + 1) * w = row * w + w := by ring
    omega
  have h2 : (row + 1) * w ≤ h * w := Nat.mul_le_mul_right w hr
  have h3 : h * w = w * h := Nat.mul_comm h w
  omega

/-! ### Option-window lemmas -/

lemma seqOpt_some_mem :
    ∀ {l : List (Option ℚ)} {xs : List ℚ}, seqOpt l = some xs →
      ∀ x ∈ xs, some x ∈ l := by
  intro l
  induction l with
  | nil =>
    intro xs hxs x hx
    simp only [seqOpt, Option.some.injEq] at hxs
    subst hxs
    simp at hx
  | cons o t ih =>
    intro xs hxs x hx
    match o with
    | none => simp [seqOpt] at hxs
    | some a =>
      simp only [seqOpt, Option.map_eq_some'] at hxs
      obtain ⟨ys, hys, rfl⟩ := hxs
      rcases List.mem_cons.mp hx with rfl | hmem
      · simp
      · exact List.mem_cons_of_mem _ (ih hys x hmem)

lemma seqOpt_none_of_mem :
    ∀ {l : List (Option ℚ)}, none ∈ l → seqOpt l = none := by
  intro l
  induction l with
  | nil => intro h; simp at h
  | cons o t ih =>
    intro h
    match o with
    | none => rfl
    | some a =>
      rcases List.mem_cons.mp h with h0 | hmem
      · exact absurd h0.symm (Option.some_ne_none a)
      · simp [seqOpt, ih hmem]

lemma mem_windowAt {gray : List ℚ} {st : ℕ} {o : Option ℚ}
    (ho : o ∈ windowAt gray st) : ∃ i < 4, o = gray.get? (st + i) := by
  simp only [windowAt, List.mem_map, List.mem_range] at ho
  obtain ⟨i, hi, hval⟩ := ho
  exact ⟨i, hi, hval.symm⟩

lemma get?_some_getD {l : List ℚ} {n : ℕ} {x : ℚ} (h : l.get? n = some x) :
    n < l.length ∧ l.getD n 0 = x := by
  have hn : n < l.length := List.get?_eq_some.mp h |>.1
  refine ⟨hn, ?_⟩
  rw [List.getD_eq_getElem?_getD, ← List.get?_eq_getElem?, h]
  rfl

/-- On a grid whose in-range values are all equal, no compression boundary
fires: in-range windows have variance `0` on both sides, and any window
containing an out-of-range read has a `NaN` variance, which compares false. -/
lemma boundaryHit_of_const {gray : List ℚ} {c : ℚ}
    (hg : ∀ i, i < gray.length → gray.getD i 0 = c) (w byi bxi : ℕ) :
    boundaryHit gray w byi bxi = false := by
  unfold boundaryHit
  have hvar : ∀ st xs, seqOpt (windowAt gray st) = some xs →
      calculateVariance xs = 0 := by
    intro st xs hxs
    apply calculateVariance_const _ c
    intro x hx
    obtain ⟨i, hi, hval⟩ := mem_windowAt (seqOpt_some_mem hxs x hx)
    obtain ⟨hlt, hgd⟩ := get?_some_getD hval.symm
    rw [← hgd]
    exact hg _ hlt
  cases hb : varianceO (windowAt gray (byi * w + bxi)) with
  | none => simp [hb]
  | some bv =>
    cases hi : varianceO (windowAt gray ((byi + 2) * w + bxi)) with
    | none => simp [hb, hi]
    | some iv =>
      simp only [hb, hi]
      obtain ⟨xs, hxs, hbv⟩ := Option.map_eq_some'.mp hb
      obtain ⟨ys, hys, hiv⟩ := Option.map_eq_some'.mp hi
      have h1 : bv = 0 := by rw [← hbv]; exact hvar _ _ hxs
      have h2 : iv = 0 := by rw [← hiv]; exact hvar _ _ hys
      rw [h1, h2]
      norm_num

/-! ### Uniform-image analyzer values -/

lemma blockAt_const {grid : List ℚ} {w : ℕ} {c : ℚ} {byi bxi s : ℕ}
    (hin : ∀ y, y < s → ∀ x, x < s → (byi + y) * w + (bxi + x) < grid.length)
    (hval : ∀ i, i < grid.length → grid.getD i 0 = c) :
    ∀ e ∈ blockAt grid w byi bxi s, e = c := by
  intro e he
  obtain ⟨y, hy, x, hx, rfl⟩ := mem_blockAt he
  exact hval _ (hin y hy x hx)

lemma analyzeFrequencyDomain_uniform (w h v : ℕ) :
    analyzeFrequencyDomain (uniformPixels w h v) w h =
      min 1 (((stride0 8 (h - 8)).length : ℚ) *
        (((stride0 8 (w - 8)).length : ℚ) * 0.1) / 10) := by
  have hlumalen : (lumaOf (uniformPixels w h v)).length = w * h := by
    rw [lumaOf_length, uniformPixels, pixelsOfFun_length]
    omega
  simp only [analyzeFrequencyDomain]
  congr 1
  rw [sum_map_const_of _ _ (((stride0 8 (w - 8)).length : ℚ) * 0.1)]
  · intro byi hby
    rw [sum_map_const_of _ _ (0.1 : ℚ)]
    intro bxi hbx
    have hby8 := mem_stride0_bound hby
    have hbx8 := mem_stride0_bound hbx
    have hvar : calculateVariance
        (blockAt (lumaOf (uniformPixels w h v)) w byi bxi 8) = 0 := by
      apply calculateVariance_const _ ((v : ℚ) / 255)
      apply blockAt_const
      · intro y hy x hx
        rw [hlumalen]
        exact rowcol_lt (by omega) (by omega)
      · intro i hi
        exact lumaOf_uniform_getD w h v i (by omega)
    rw [if_pos (Or.inl (by rw [hvar]; norm_num))]

lemma detectCompressionArtifacts_uniform (w h v : ℕ) :
    detectCompressionArtifacts (uniformPixels w h v) w h = 0 := by
  simp only [detectCompressionArtifacts]
  have hz : ((stride8 h).map (fun byi =>
      ((stride8 w).map (fun bxi =>
        if boundaryHit (grayOf (uniformPixels w h v)) w byi bxi
        then (0.05 : ℚ) else 0)).sum)).sum = 0 := by
    rw [sum_map_const_of _ _ 0]
    · ring
    · intro byi _
      rw [sum_map_const_of _ _ 0]
      · ring
      · intro bxi _
        rw [boundaryHit_of_const (c := (v : ℚ) / 255)]
        · simp
        · intro i hi
          apply grayOf_uniform_getD
          rw [grayOf_length, uniformPixels, pixelsOfFun_length] at hi
          omega
  rw [hz]
  norm_num

lemma analyzeTextureConsistency_uniform (w h v : ℕ) :
    analyzeTextureConsistency (uniformPixels w h v) w h =
      min 1 (((stride0 64 (h - 64)).length : ℚ) *
        (((stride0 64 (w - 64)).length : ℚ) * 0.1) + 0.2) := by
  have hglen : (grayOf (uniformPixels w h v)).length = w * h := by
    rw [grayOf_length, uniformPixels, pixelsOfFun_length]
    omega
  have hregion : ∀ ry ∈ stride0 64 (h - 64), ∀ rx ∈ stride0 64 (w - 64),
      ∀ e ∈ blockAt (grayOf (uniformPixels w h v)) w ry rx 64, e = (v : ℚ) / 255 := by
    intro ry hry rx hrx
    have hry64 := mem_stride0_bound hry
    have hrx64 := mem_stride0_bound hrx
    apply blockAt_const
    · intro y hy x hx
      rw [hglen]
      exact rowcol_lt (by omega) (by omega)
    · intro i hi
      exact grayOf_uniform_getD w h v i (by omega)
  simp only [analyzeTextureConsistency]
  congr 1
  have hsmooth : ((stride0 64 (h - 64)).map (fun ry =>
      ((stride0 64 (w - 64)).map (fun rx =>
        if calculateVariance (blockAt (grayOf (uniformPixels w h v)) w ry rx 64) < 0.01 ∧
            ((countEdges (blockAt (grayOf (uniformPixels w h v)) w ry rx 64) 64 : ℕ) : ℚ) <
              (64 : ℚ) / 2
        then (0.1 : ℚ) else 0)).sum)).sum =
      ((stride0 64 (h - 64)).length : ℚ) * (((stride0 64 (w - 64)).length : ℚ) * 0.1) := by
    rw [sum_map_const_of _ _ (((stride0 64 (w - 64)).length : ℚ) * 0.1)]
    · intro ry hry
      rw [sum_map_const_of _ _ (0.1 : ℚ)]
      intro rx hrx
      have hconst := hregion ry hry rx hrx
      have hvar : calculateVariance
          (blockAt (grayOf (uniformPixels w h v)) w ry rx 64) = 0 :=
        calculateVariance_const _ _ hconst
      have hedge : countEdges
          (blockAt (grayOf (uniformPixels w h v)) w ry rx 64) 64 = 0 :=
        countEdges_const _ ((v : ℚ) / 255) 64 hconst
      rw [if_pos]
      constructor
      · rw [hvar]; norm_num
      · rw [hedge]; norm_num
  have hregvar : calculateVariance ((stride0 64 (h - 64)).flatMap (fun ry =>
      (stride0 64 (w - 64)).map (fun rx =>
        calculateVariance (blockAt (grayOf (uniformPixels w h v)) w ry rx 64)))) = 0 := by
    apply calculateVariance_const _ 0
    intro e he
    simp only [List.mem_flatMap, List.mem_map] at he
    obtain ⟨ry, hry, rx, hrx, rfl⟩ := he
    exact calculateVariance_const _ _ (hregion ry hry rx hrx)
  rw [hsmooth, hregvar, if_pos (by norm_num)]

/-- Generalization of the uniform-image frequency computation to any image
whose luma values on the `w*h` grid are all one constant: every scanned
block has variance `0` and fires its `0.1` increment. -/
lemma analyzeFrequencyDomain_constLuma (p : List ℕ) (w h : ℕ) (c : ℚ)
    (hval : ∀ i, i < w * h → (lumaOf p).getD i 0 = c) :
    analyzeFrequencyDomain p w h =
      min 1 (((stride0 8 (h - 8)).length : ℚ) *
        (((stride0 8 (w - 8)).length : ℚ) * 0.1) / 10) := by
  simp only [analyzeFrequencyDomain]
  congr 1
  rw [sum_map_const_of _ _ (((stride0 8 (w - 8)).length : ℚ) * 0.1)]
  · intro byi hby
    rw [sum_map_const_of _ _ (0.1 : ℚ)]
    intro bxi hbx
    have hby8 := mem_stride0_bound hby
    have hbx8 := mem_stride0_bound hbx
    have hvar : calculateVariance (blockAt (lumaOf p) w byi bxi 8) = 0 := by
      apply calculateVariance_const _ c
      intro e he
      obtain ⟨y, hy, x, hx, he2⟩ := mem_blockAt he
      rw [he2]
      exact hval _ (rowcol_lt (by omega) (by omega))
    rw [if_pos (Or.inl (by rw [hvar]; norm_num))]

/-- Generalization of the uniform-image compression computation: a constant
grayscale grid never fires a boundary. -/
lemma detectCompressionArtifacts_constGray (p : List ℕ) (w h : ℕ) (c : ℚ)
    (hval : ∀ i, i < (grayOf p).length → (grayOf p).getD i 0 = c) :
    detectCompressionArtifacts p w h = 0 := by
  simp only [detectCompressionArtifacts]
  have hz : ((stride8 h).map (fun byi =>
      ((stride8 w).map (fun bxi =>
        if boundaryHit (grayOf p) w byi bxi
        then (0.05 : ℚ) else 0)).sum)).sum = 0 := by
    rw [sum_map_const_of _ _ 0]
    · ring
    · intro byi _
      rw [sum_map_const_of _ _ 0]
      · ring
      · intro bxi _
        rw [boundaryHit_of_const hval]
        simp
  rw [hz]
  norm_num

/-! ### Correlation and color lemmas -/

/-- In exact arithmetic a constant channel zeroes all its deviations, so the
denominator `√(sumX2·sumY2)` is `0` and the zero-denominator guard fires.
(The program's binary64 arithmetic matches this only when the channel mean
accumulates exactly — see `calculateCorrelationSq`; these constant-channel
lemmas are therefore kept to internal use, and no claim theorem quotes a
value that depends on this branch.) -/
lemma squaredDev_sum_zero (x : List ℚ) (c : ℚ) (h : ∀ v ∈ x, v = c) :
    (x.map (fun v => (v - x.sum / (x.length : ℚ)) ^ 2)).sum = 0 := by
  rcases Nat.eq_zero_or_pos x.length with h0 | hpos
  · rw [List.length_eq_zero.mp h0]
    simp
  · have hne : (x.length : ℚ) ≠ 0 := by positivity
    have hmean : x.sum / (x.length : ℚ) = c := by
      rw [sum_const_of h]
      field_simp
    rw [sum_map_const_of _ _ 0]
    · ring
    · intro v hv
      rw [hmean, h v hv]
      ring

lemma corrSq_left_const (x y : List ℚ) (c : ℚ) (h : ∀ v ∈ x, v = c) :
    calculateCorrelationSq x y = 0 := by
  simp only [calculateCorrelationSq]
  split_ifs with h1 h2
  · rfl
  · rfl
  · exact absurd (by rw [squaredDev_sum_zero x c h]; ring) h2

/-- If the first two sampled channels are constant, the color analyzer scores
exactly `0.2`: all three pairwise correlations are `0`, so the `>0.95` branch
cannot fire and the `<0.3` branch does. -/
lemma detectColorAnomalies_of_const (pixels : List ℕ) (c1 c2 : ℚ)
    (hr : ∀ v ∈ channelSamples pixels 0, v = c1)
    (hg : ∀ v ∈ channelSamples pixels 1, v = c2) :
    detectColorAnomalies pixels = 0.2 := by
  simp only [detectColorAnomalies]
  rw [corrSq_left_const _ _ c1 hr, corrSq_left_const _ _ c1 hr,
    corrSq_left_const _ _ c2 hg]
  norm_num

lemma channelSamples_uniform (w h v off : ℕ) (hoff : off < 3) :
    ∀ x ∈ channelSamples (uniformPixels w h v) off, x = (v : ℚ) / 255 := by
  intro x hx
  simp only [channelSamples, List.mem_map, List.mem_range] at hx
  obtain ⟨i, hi, rfl⟩ := hx
  have hlen : (uniformPixels w h v).length = w * h * 4 := by
    rw [uniformPixels, pixelsOfFun_length]
  have hi' : i < w * h := by
    rw [hlen] at hi
    omega
  have := pixelsOfFun_getD w h (fun _ _ => (v, v, v)) i off 0 hi' (by omega)
  rw [uniformPixels, this]
  interval_cases off <;> simp

lemma detectColorAnomalies_uniform (w h v : ℕ) :
    detectColorAnomalies (uniformPixels w h v) = 0.2 :=
  detectColorAnomalies_of_const _ ((v : ℚ) / 255) ((v : ℚ) / 255)
    (channelSamples_uniform w h v 0 (by norm_num))
    (channelSamples_uniform w h v 1 (by norm_num))

/-! ### Score bounds -/

lemma ite_nonneg {P : Prop} [Decidable P] {a b : ℚ} (ha : 0 ≤ a) (hb : 0 ≤ b) :
    0 ≤ if P then a else b := by
  split_ifs <;> assumption

lemma sum_map_nonneg {α : Type} (l : List α) (f : α → ℚ)
    (h : ∀ x ∈ l, 0 ≤ f x) : 0 ≤ (l.map f).sum := by
  apply List.sum_nonneg
  intro a ha
  obtain ⟨x, hx, rfl⟩ := List.mem_map.mp ha
  exact h x hx

/-! ### Affine channels correlate at exactly 1 -/

lemma getD_map_of_lt {α β : Type} (l : List α) (f : α → β) (i : ℕ) (d : β)
    (d' : α) (hi : i < l.length) : (l.map f).getD i d = f (l.getD i d') := by
  simp [List.getD_eq_getElem?_getD, List.getElem?_map, List.getElem?_eq_getElem hi]

lemma list_eq_of_getD (l1 l2 : List ℚ) (hlen : l1.length = l2.length)
    (h : ∀ i, i < l1.length → l1.getD i 0 = l2.getD i 0) : l1 = l2 := by
  apply List.ext_getElem hlen
  intro i h1 h2
  have hi := h i h1
  rwa [List.getD_eq_getElem?_getD, List.getElem?_eq_getElem h1,
    List.getD_eq_getElem?_getD, List.getElem?_eq_getElem h2] at hi

lemma sum_map_affine (l : List ℚ) (a b : ℚ) :
    (l.map (fun t => a * t + b)).sum = a * l.sum + (l.length : ℚ) * b := by
  induction l with
  | nil => simp
  | cons x t ih =>
    simp only [List.map_cons, List.sum_cons, ih, List.length_cons]
    push_cast
    ring

lemma sum_map_mul_dev (x : List ℚ) (c m : ℚ) :
    (x.map (fun v => c * (v - m) ^ 2)).sum = c * (x.map (fun v => (v - m) ^ 2)).sum := by
  induction x with
  | nil => simp
  | cons a t ih =>
    simp only [List.map_cons, List.sum_cons, ih]
    ring

lemma zip_map_self {α β : Type} (l : List α) (f : α → β) :
    l.zip (l.map f) = l.map (fun v => (v, f v)) := by
  induction l with
  | nil => rfl
  | cons x t ih => simp [ih]

lemma all_eq_of_squaredDev_zero {x : List ℚ} {m : ℚ}
    (h : (x.map (fun v => (v - m) ^ 2)).sum = 0) : ∀ v ∈ x, v = m := by
  induction x with
  | nil => intro v hv; cases hv
  | cons a t ih =>
    simp only [List.map_cons, List.sum_cons] at h
    have h1 : (0 : ℚ) ≤ (a - m) ^ 2 := sq_nonneg _
    have h2 : (0 : ℚ) ≤ (t.map (fun v => (v - m) ^ 2)).sum :=
      sum_map_nonneg t _ (fun v _ => sq_nonneg _)
    have ha : (a - m) ^ 2 = 0 := by linarith
    have ht : (t.map (fun v => (v - m) ^ 2)).sum = 0 := by linarith
    intro v hv
    rcases List.mem_cons.mp hv with rfl | hvt
    · exact sub_eq_zero.mp (sq_eq_zero_iff.mp ha)
    · exact ih ht v hvt

/-- When one channel is an affine image of the other with nonzero slope and
the base channel is not constant, both means shift affinely, every deviation
scales by the slope, and the (squared) correlation is exactly `1`: the
numerator is `a·S`, the denominator product `S·(a²·S)` with
`S = sumX2 ≠ 0`.  This matches the program: its binary64 correlation of such
channels lies within one ulp of `1.0`, on the same side of both
thresholds. -/
lemma corrSq_affine (x : List ℚ) (a b : ℚ) (ha : a ≠ 0) (i j : ℕ)
    (hi : i < x.length) (hj : j < x.length) (hne : x.getD i 0 ≠ x.getD j 0) :
    calculateCorrelationSq x (x.map (fun t => a * t + b)) = 1 := by
  have hx0 : x.length ≠ 0 := by omega
  have hnQ : ((x.length : ℚ)) ≠ 0 := by exact_mod_cast hx0
  simp only [calculateCorrelationSq, List.length_map]
  rw [if_neg (by push_neg; exact ⟨rfl, hx0⟩)]
  have hmY : (List.map (fun t => a * t + b) x).sum / (x.length : ℚ)
      = a * (x.sum / (x.length : ℚ)) + b := by
    rw [sum_map_affine]
    field_simp
    ring
  rw [hmY]
  have hY2 : List.map (fun v => (v - (a * (x.sum / (x.length : ℚ)) + b)) ^ 2)
        (List.map (fun t => a * t + b) x)
      = List.map (fun v => a ^ 2 * (v - x.sum / (x.length : ℚ)) ^ 2) x := by
    rw [List.map_map]
    exact List.map_congr_left (fun v _ => by
      simp only [Function.comp_apply]
      ring)
  have hnum : List.map (fun p => (p.1 - x.sum / (x.length : ℚ)) *
        (p.2 - (a * (x.sum / (x.length : ℚ)) + b)))
        (x.zip (List.map (fun t => a * t + b) x))
      = List.map (fun v => a * (v - x.sum / (x.length : ℚ)) ^ 2) x := by
    rw [zip_map_self, List.map_map]
    exact List.map_congr_left (fun v _ => by
      simp only [Function.comp_apply]
      ring)
  rw [hY2, hnum, sum_map_mul_dev, sum_map_mul_dev]
  have hS0 : (x.map (fun v => (v - x.sum / (x.length : ℚ)) ^ 2)).sum ≠ 0 := by
    intro h0
    have hall := all_eq_of_squaredDev_zero h0
    have h1 := hall _ (getD_eq_of_lt x i 0 hi)
    have h2 := hall _ (getD_eq_of_lt x j 0 hj)
    exact hne (h1.trans h2.symm)
  generalize (List.map (fun v => (v - x.sum / (x.length : ℚ)) ^ 2) x).sum = S at hS0 ⊢
  rw [if_neg (mul_ne_zero hS0 (mul_ne_zero (pow_ne_zero 2 ha) hS0)),
    show (a * S) ^ 2 = S * (a ^ 2 * S) from by ring]
  exact div_self (mul_ne_zero hS0 (mul_ne_zero (pow_ne_zero 2 ha) hS0))

/-- For the alternating two-color pattern of `altFun` every channel pair is
an affine image with nonzero slope of a non-constant base, so all three
squared correlations are `1`: only the `>0.95` penalty fires and the color
score is `0.3` — in the program's binary64 arithmetic likewise (the three
correlations evaluate within one ulp of `1.0`). -/
lemma detectColorAnomalies_altPattern (P : List ℕ)
    (hn : min (P.length / 4) 1000 = 1000)
    (hpix : ∀ i, i < 1000 →
      P.getD (4 * i) 0 = (if i % 2 = 1 then 129 else 128) ∧
      P.getD (4 * i + 1) 0 = (if i % 2 = 1 then 97 else 128) ∧
      P.getD (4 * i + 2) 0 = (if i % 2 = 1 then 221 else 64)) :
    detectColorAnomalies P = 0.3 := by
  have hch : ∀ off i : ℕ, i < 1000 →
      (channelSamples P off).getD i 0 = ((P.getD (4 * i + off) 0 : ℕ) : ℚ) / 255 := by
    intro off i hi
    rw [channelSamples, hn]
    exact getD_map_range _ 1000 i 0 hi
  have hlen : ∀ off : ℕ, (channelSamples P off).length = 1000 := by
    intro off
    rw [channelSamples, hn]
    simp
  have hval : ∀ off i : ℕ, off < 3 → i < 1000 →
      (channelSamples P off).getD i 0 =
        (if i % 2 = 1 then
          (if off = 0 then (129 : ℚ) else if off = 1 then 97 else 221)
        else
          (if off = 0 then (128 : ℚ) else if off = 1 then 128 else 64)) / 255 := by
    intro off i hoff hi
    rw [hch off i hi]
    obtain ⟨h0, h1, h2⟩ := hpix i hi
    interval_cases off
    · rw [show 4 * i + 0 = 4 * i from rfl, h0]
      rcases Nat.mod_two_eq_zero_or_one i with hp | hp <;> rw [hp] <;> norm_num
    · rw [h1]
      rcases Nat.mod_two_eq_zero_or_one i with hp | hp <;> rw [hp] <;> norm_num
    · rw [h2]
      rcases Nat.mod_two_eq_zero_or_one i with hp | hp <;> rw [hp] <;> norm_num
  have hg : channelSamples P 1 =
      (channelSamples P 0).map (fun v => -31 * v + 4096 / 255) := by
    apply list_eq_of_getD
    · rw [hlen 1, List.length_map, hlen 0]
    · intro i hil
      rw [hlen 1] at hil
      rw [hval 1 i (by norm_num) hil,
        getD_map_of_lt _ _ i 0 0 (by rw [hlen 0]; exact hil),
        hval 0 i (by norm_num) hil]
      rcases Nat.mod_two_eq_zero_or_one i with hp | hp <;> rw [hp] <;> norm_num
  have hb : channelSamples P 2 =
      (channelSamples P 0).map (fun v => 157 * v + -20032 / 255) := by
    apply list_eq_of_getD
    · rw [hlen 2, List.length_map, hlen 0]
    · intro i hil
      rw [hlen 2] at hil
      rw [hval 2 i (by norm_num) hil,
        getD_map_of_lt _ _ i 0 0 (by rw [hlen 0]; exact hil),
        hval 0 i (by norm_num) hil]
      rcases Nat.mod_two_eq_zero_or_one i with hp | hp <;> rw [hp] <;> norm_num
  have hr01 : (channelSamples P 0).getD 0 0 ≠ (channelSamples P 0).getD 1 0 := by
    rw [hval 0 0 (by norm_num) (by norm_num), hval 0 1 (by norm_num) (by norm_num)]
    norm_num
  have hg01 : (channelSamples P 1).getD 0 0 ≠ (channelSamples P 1).getD 1 0 := by
    rw [hval 1 0 (by norm_num) (by norm_num), hval 1 1 (by norm_num) (by norm_num)]
    norm_num
  have hgb : channelSamples P 2 =
      (channelSamples P 1).map (fun v => -157 / 31 * v + 22080 / 7905) := by
    apply list_eq_of_getD
    · rw [hlen 2, List.length_map, hlen 1]
    · intro i hil
      rw [hlen 2] at hil
      rw [hval 2 i (by norm_num) hil,
        getD_map_of_lt _ _ i 0 0 (by rw [hlen 1]; exact hil),
        hval 1 i (by norm_num) hil]
      rcases Nat.mod_two_eq_zero_or_one i with hp | hp <;> rw [hp] <;> norm_num
  have hi0 : (0 : ℕ) < (channelSamples P 0).length := by rw [hlen 0]; norm_num
  have hi1 : (1 : ℕ) < (channelSamples P 0).length := by rw [hlen 0]; norm_num
  have hj0 : (0 : ℕ) < (channelSamples P 1).length := by rw [hlen 1]; norm_num
  have hj1 : (1 : ℕ) < (channelSamples P 1).length := by rw [hlen 1]; norm_num
  have hrg : calculateCorrelationSq (channelSamples P 0) (channelSamples P 1) = 1 := by
    rw [hg]
    exact corrSq_affine _ (-31) (4096 / 255) (by norm_num) 0 1 hi0 hi1 hr01
  have hrb : calculateCorrelationSq (channelSamples P 0) (channelSamples P 2) = 1 := by
    rw [hb]
    exact corrSq_affine _ 157 (-20032 / 255) (by norm_num) 0 1 hi0 hi1 hr01
  have hgbc : calculateCorrelationSq (channelSamples P 1) (channelSamples P 2) = 1 := by
    rw [hgb]
    exact corrSq_affine _ (-157 / 31) (22080 / 7905) (by norm_num) 0 1 hj0 hj1 hg01
  simp only [detectColorAnomalies]
  rw [hrg, hrb, hgbc, if_pos (Or.inl (by norm_num)), if_neg (by norm_num)]
  norm_num

lemma analyzeFrequencyDomain_bounds (pixels : List ℕ) (w h : ℕ) :
    0 ≤ analyzeFrequencyDomain pixels w h ∧ analyzeFrequencyDomain pixels w h ≤ 1 := by
  simp only [analyzeFrequencyDomain]
  constructor
  · apply le_min (by norm_num)
    apply div_nonneg _ (by norm_num)
    apply sum_map_nonneg
    intro byi _
    apply sum_map_nonneg
    intro bxi _
    exact ite_nonneg (by norm_num) le_rfl
  · exact min_le_left _ _

lemma detectCompressionArtifacts_bounds (pixels : List ℕ) (w h : ℕ) :
    0 ≤ detectCompressionArtifacts pixels w h ∧
      detectCompressionArtifacts pixels w h ≤ 1 := by
  simp only [detectCompressionArtifacts]
  constructor
  · apply le_min (by norm_num)
    apply sum_map_nonneg
    intro byi _
    apply sum_map_nonneg
    intro bxi _
    exact ite_nonneg (by norm_num) le_rfl
  · exact min_le_left _ _

lemma analyzeTextureConsistency_bounds (pixels : List ℕ) (w h : ℕ) :
    0 ≤ analyzeTextureConsistency pixels w h ∧
      analyzeTextureConsistency pixels w h ≤ 1 := by
  simp only [analyzeTextureConsistency]
  constructor
  · apply le_min (by norm_num)
    apply add_nonneg
    · apply sum_map_nonneg
      intro ry _
      apply sum_map_nonneg
      intro rx _
      exact ite_nonneg (by norm_num) le_rfl
    · exact ite_nonneg (by norm_num) le_rfl
  · exact min_le_left _ _

lemma detectColorAnomalies_bounds (pixels : List ℕ) :
    0 ≤ detectColorAnomalies pixels ∧ detectColorAnomalies pixels ≤ 1 := by
  simp only [detectColorAnomalies]
  constructor
  · apply le_min (by norm_num)
    exact add_nonneg (ite_nonneg (by norm_num) le_rfl) (ite_nonneg (by norm_num) le_rfl)
  · exact min_le_left _ _

lemma confidenceRaw_bounds (pixels : List ℕ) (w h : ℕ) :
    0 ≤ confidenceRaw pixels w h ∧ confidenceRaw pixels w h ≤ 100 := by
  unfold confidenceRaw
  exact ⟨le_min (by norm_num) (le_max_left _ _), min_le_left _ _⟩

lemma roundQ_bounds {q : ℚ} (h0 : 0 ≤ q) (h100 : q ≤ 100) :
    0 ≤ roundQ q ∧ roundQ q ≤ 100 := by
  unfold roundQ
  constructor
  · rw [Int.le_floor]
    push_cast
    linarith
  · have : ⌊q + 1 / 2⌋ < 101 := by
      rw [Int.floor_lt]
      push_cast
      linarith
    omega

/-! ### Claim theorems (general) -/

/-- C5: for every input pixel buffer each of the four analyzer scores lies in
`[0,1]` and the combined confidence — both the clamped pre-rounding value and
the returned integer field — lies in `[0,100]`. -/
theorem claim5_scores_and_confidence_bounded (pixels : List ℕ) (w h : ℕ) :
    (0 ≤ analyzeFrequencyDomain pixels w h ∧ analyzeFrequencyDomain pixels w h ≤ 1) ∧
    (0 ≤ detectCompressionArtifacts pixels w h ∧
      detectCompressionArtifacts pixels w h ≤ 1) ∧
    (0 ≤ analyzeTextureConsistency pixels w h ∧
      analyzeTextureConsistency pixels w h ≤ 1) ∧
    (0 ≤ detectColorAnomalies pixels ∧ detectColorAnomalies pixels ≤ 1) ∧
    (0 ≤ confidenceRaw pixels w h ∧ confidenceRaw pixels w h ≤ 100) ∧
    (0 ≤ (analyzeImageForDeepfake pixels w h).confidence ∧
      (analyzeImageForDeepfake pixels w h).confidence ≤ 100) :=
  ⟨analyzeFrequencyDomain_bounds pixels w h,
    detectCompressionArtifacts_bounds pixels w h,
    analyzeTextureConsistency_bounds pixels w h,
    detectColorAnomalies_bounds pixels,
    confidenceRaw_bounds pixels w h,
    roundQ_bounds (confidenceRaw_bounds pixels w h).1 (confidenceRaw_bounds pixels w h).2⟩

/-- C7: the returned integer confidence equals
`round(min(100, max(0, combinedScore*100)))` where `combinedScore` is the
weighted sum of the four analyzer scores with weights `0.35/0.25/0.25/0.15`,
which sum to `1`. -/
theorem claim7_confidence_is_rounded_weighted_sum (pixels : List ℕ) (w h : ℕ) :
    (analyzeImageForDeepfake pixels w h).confidence =
      roundQ (min 100 (max 0
        ((0.35 * analyzeFrequencyDomain pixels w h +
          0.25 * detectCompressionArtifacts pixels w h +
          0.25 * analyzeTextureConsistency pixels w h +
          0.15 * detectColorAnomalies pixels) * 100))) ∧
    weightFrequency = 0.35 ∧ weightCompression = 0.25 ∧
    weightTexture = 0.25 ∧ weightColor = 0.15 ∧
    weightFrequency + weightCompression + weightTexture + weightColor = 1 := by
  refine ⟨?_, rfl, rfl, rfl, rfl, by norm_num [weightFrequency, weightCompression,
    weightTexture, weightColor]⟩
  have hcs : combinedScore pixels w h =
      0.35 * analyzeFrequencyDomain pixels w h +
        0.25 * detectCompressionArtifacts pixels w h +
        0.25 * analyzeTextureConsistency pixels w h +
        0.15 * detectColorAnomalies pixels := by
    simp only [combinedScore, weightFrequency, weightCompression, weightTexture,
      weightColor]
    ring
  show roundQ (confidenceRaw pixels w h) = _
  rw [confidenceRaw, hcs]

/-- C3 (amended): `riskLevel` is determined by the pre-rounding clamped
confidence via the fixed thresholds (`>70` high, `>40` medium, else low);
the integer `confidence` field is the half-up rounding of that value. -/
theorem claim3_riskLevel_thresholds (pixels : List ℕ) (w h : ℕ) :
    ((analyzeImageForDeepfake pixels w h).riskLevel = RiskLevel.high ↔
      70 < confidenceRaw pixels w h) ∧
    ((analyzeImageForDeepfake pixels w h).riskLevel = RiskLevel.medium ↔
      40 < confidenceRaw pixels w h ∧ confidenceRaw pixels w h ≤ 70) ∧
    ((analyzeImageForDeepfake pixels w h).riskLevel = RiskLevel.low ↔
      confidenceRaw pixels w h ≤ 40) ∧
    (analyzeImageForDeepfake pixels w h).confidence =
      roundQ (confidenceRaw pixels w h) := by
  have hrl : (analyzeImageForDeepfake pixels w h).riskLevel =
      if confidenceRaw pixels w h > 70 then RiskLevel.high
      else if confidenceRaw pixels w h > 40 then RiskLevel.medium
      else RiskLevel.low := rfl
  rw [hrl]
  split_ifs with h1 h2
  · refine ⟨⟨fun _ => h1, fun _ => rfl⟩, ⟨fun hc => ?_, fun hc => ?_⟩,
      ⟨fun hc => ?_, fun hc => ?_⟩, rfl⟩
    · exact absurd hc (by decide)
    · linarith [hc.2]
    · exact absurd hc (by decide)
    · linarith
  · refine ⟨⟨fun hc => ?_, fun hc => ?_⟩, ⟨fun _ => ⟨h2, by linarith⟩, fun _ => rfl⟩,
      ⟨fun hc => ?_, fun hc => ?_⟩, rfl⟩
    · exact absurd hc (by decide)
    · linarith
    · exact absurd hc (by decide)
    · linarith
  · refine ⟨⟨fun hc => ?_, fun hc => ?_⟩, ⟨fun hc => ?_, fun hc => ?_⟩,
      ⟨fun _ => by linarith, fun _ => rfl⟩, rfl⟩
    · exact absurd hc (by decide)
    · linarith
    · exact absurd hc (by decide)
    · linarith [hc.1]

/-- C4 (amended): `isFake` is true exactly when the pre-rounding clamped
confidence exceeds `50` (the comparison happens before rounding, so it is not
in general a function of the returned integer field). -/
theorem claim4_isFake_iff_raw_confidence (pixels : List ℕ) (w h : ℕ) :
    (analyzeImageForDeepfake pixels w h).isFake = true ↔
      50 < confidenceRaw pixels w h := by
  have hif : (analyzeImageForDeepfake pixels w h).isFake =
      decide (confidenceRaw pixels w h > 50) := rfl
  rw [hif]
  exact decide_eq_true_iff

/-! ### C9: out-of-range reads in the compression analyzer -/

lemma boundaryHit_oob (gray : List ℚ) (w byi bxi : ℕ)
    (hoob : ∃ i, i < 4 ∧ (gray.length ≤ byi * w + bxi + i ∨
      gray.length ≤ (byi + 2) * w + bxi + i)) :
    boundaryHit gray w byi bxi = false := by
  obtain ⟨i, hi4, hcase⟩ := hoob
  rcases hcase with hc | hc
  · have hmem : none ∈ windowAt gray (byi * w + bxi) := by
      simp only [windowAt, List.mem_map, List.mem_range]
      exact ⟨i, hi4, List.get?_eq_none.mpr hc⟩
    have hv : varianceO (windowAt gray (byi * w + bxi)) = none := by
      simp [varianceO, seqOpt_none_of_mem hmem]
    simp [boundaryHit, hv]
  · have hmem : none ∈ windowAt gray ((byi + 2) * w + bxi) := by
      simp only [windowAt, List.mem_map, List.mem_range]
      exact ⟨i, hi4, List.get?_eq_none.mpr hc⟩
    have hv : varianceO (windowAt gray ((byi + 2) * w + bxi)) = none := by
      simp [varianceO, seqOpt_none_of_mem hmem]
    cases hb : varianceO (windowAt gray (byi * w + bxi)) <;>
      simp [boundaryHit, hb, hv]

/-- C9: the Compression-Boundary analyzer is total and bounded for all
dimensions, and a boundary whose 4-value window reaches outside the
grayscale array (the JS read is `undefined`, the variance `NaN`) contributes
nothing. -/
theorem claim9_compression_total_oob_contributes_nothing :
    (∀ (pixels : List ℕ) (w h : ℕ),
      0 ≤ detectCompressionArtifacts pixels w h ∧
        detectCompressionArtifacts pixels w h ≤ 1) ∧
    (∀ (gray : List ℚ) (w byi bxi : ℕ),
      (∃ i, i < 4 ∧ (gray.length ≤ byi * w + bxi + i ∨
        gray.length ≤ (byi + 2) * w + bxi + i)) →
      boundaryHit gray w byi bxi = false) :=
  ⟨fun pixels w h => detectCompressionArtifacts_bounds pixels w h,
    fun gray w byi bxi hoob => boundaryHit_oob gray w byi bxi hoob⟩

/-- Witness for C9 at a concrete out-of-range boundary: a 3-element grid with
`w = 1`, whose "inside" window starts at index 2 and reads past the end. -/
theorem claim9_witness :
    (∃ i, i < 4 ∧ (([(0 : ℚ), 0, 0]).length ≤ 0 * 1 + 0 + i ∨
      ([(0 : ℚ), 0, 0]).length ≤ (0 + 2) * 1 + 0 + i)) ∧
    boundaryHit [(0 : ℚ), 0, 0] 1 0 0 = false :=
  ⟨⟨1, by norm_num⟩,
    claim9_compression_total_oob_contributes_nothing.2 [(0 : ℚ), 0, 0] 1 0 0
      ⟨1, by norm_num⟩⟩

/-! ### Assembly helpers -/

/-- The result record of `analyzeImageForDeepfake`, field by field. -/
lemma analyzeImageForDeepfake_eq (p : List ℕ) (w h : ℕ) :
    analyzeImageForDeepfake p w h =
      { isFake := decide (confidenceRaw p w h > 50)
        confidence := roundQ (confidenceRaw p w h)
        riskLevel :=
          if confidenceRaw p w h > 70 then RiskLevel.high
          else if confidenceRaw p w h > 40 then RiskLevel.medium
          else RiskLevel.low
        details :=
          { frequencyAnomaly := roundQ (analyzeFrequencyDomain p w h * 100)
            compressionArtifacts := roundQ (detectCompressionArtifacts p w h * 100)
            textureInconsistency := roundQ (analyzeTextureConsistency p w h * 100)
            colorAnomalies := roundQ (detectColorAnomalies p * 100) } } := rfl

lemma sum_map_ite_count (l : List ℕ) (p : ℕ → Prop) [DecidablePred p] (c : ℚ) :
    (l.map (fun k => if p k then c else 0)).sum =
      (l.countP (fun k => decide (p k)) : ℚ) * c := by
  induction l with
  | nil => simp
  | cons a t ih =>
    by_cases hp : p a <;>
      simp [List.countP_cons, hp, ih] <;> push_cast <;> ring

lemma stride0_zero (s : ℕ) (hs : 0 < s) : stride0 s 0 = [] := by
  unfold stride0
  rw [Nat.div_eq_of_lt (by omega)]
  rfl

lemma stride8_zero : stride8 0 = [] := rfl

lemma channelSamples_nil (off : ℕ) : channelSamples [] off = [] := by
  simp [channelSamples]

lemma detectColorAnomalies_nil : detectColorAnomalies [] = 0.2 := by
  simp only [detectColorAnomalies, channelSamples_nil]
  have hz : calculateCorrelationSq [] [] = 0 := by
    simp [calculateCorrelationSq]
  rw [hz]
  norm_num

lemma analyzeFrequencyDomain_degenerate (p : List ℕ) (w h : ℕ)
    (hwh : w = 0 ∨ h = 0) : analyzeFrequencyDomain p w h = 0 := by
  simp only [analyzeFrequencyDomain]
  have hz : ((stride0 8 (h - 8)).map (fun byi =>
      ((stride0 8 (w - 8)).map (fun bxi =>
        if calculateVariance (blockAt (lumaOf p) w byi bxi 8) < 0.01 ∨
            checkPeriodicity (blockAt (lumaOf p) w byi bxi 8) > 0.7
        then (0.1 : ℚ) else 0)).sum)).sum = 0 := by
    rcases hwh with rfl | rfl
    · rw [sum_map_const_of _ _ 0]
      · ring
      · intro byi _
        rw [show (0 : ℕ) - 8 = 0 from rfl, stride0_zero 8 (by norm_num)]
        rfl
    · rw [show (0 : ℕ) - 8 = 0 from rfl, stride0_zero 8 (by norm_num)]
      rfl
  rw [hz]
  norm_num

lemma detectCompressionArtifacts_degenerate (p : List ℕ) (w h : ℕ)
    (hwh : w = 0 ∨ h = 0) : detectCompressionArtifacts p w h = 0 := by
  simp only [detectCompressionArtifacts]
  have hz : ((stride8 h).map (fun byi =>
      ((stride8 w).map (fun bxi =>
        if boundaryHit (grayOf p) w byi bxi then (0.05 : ℚ) else 0)).sum)).sum = 0 := by
    rcases hwh with rfl | rfl
    · rw [sum_map_const_of _ _ 0]
      · ring
      · intro byi _
        rw [stride8_zero]
        rfl
    · rw [stride8_zero]
      rfl
  rw [hz]
  norm_num

/-- When the width is at most 64 (or the height is: symmetric argument via
the other list) the region loops of the texture analyzer never run; the
empty per-region variance list has variance `0 < 0.02`, so the score is the
flat `0.2`. -/
lemma flatMap_nil_const {α : Type} (l : List α) :
    (l.flatMap (fun _ => ([] : List ℚ))) = [] := by
  induction l with
  | nil => rfl
  | cons a t ih => simpa using ih

lemma map_zero_sum {α : Type} (l : List α) :
    (l.map (fun _ => (0 : ℚ))).sum = 0 := by
  induction l with
  | nil => rfl
  | cons a t ih => simpa using ih

lemma analyzeTextureConsistency_noRegions (p : List ℕ) (w h : ℕ)
    (hwh : w ≤ 64 ∨ h ≤ 64) : analyzeTextureConsistency p w h = 0.2 := by
  simp only [analyzeTextureConsistency]
  rcases hwh with hw | hh
  · have hcol : stride0 64 (w - 64) = [] := by
      rw [show w - 64 = 0 by omega]
      exact stride0_zero 64 (by norm_num)
    rw [hcol]
    simp only [List.map_nil, List.sum_nil, flatMap_nil_const, map_zero_sum]
    have hve : calculateVariance [] = 0 := rfl
    rw [hve, if_pos (by norm_num)]
    norm_num
  · have hrow : stride0 64 (h - 64) = [] := by
      rw [show h - 64 = 0 by omega]
      exact stride0_zero 64 (by norm_num)
    rw [hrow]
    simp only [List.map_nil, List.sum_nil, List.flatMap_nil]
    have hve : calculateVariance [] = 0 := rfl
    rw [hve, if_pos (by norm_num)]
    norm_num

/-- The full result for an empty RGBA buffer with a zero-area geometry. -/
lemma analyze_empty (w h : ℕ) (hwh : w * h = 0) :
    analyzeImageForDeepfake [] w h =
      ⟨false, 8, RiskLevel.low, ⟨0, 0, 20, 20⟩⟩ := by
  have hwh' : w = 0 ∨ h = 0 := Nat.mul_eq_zero.mp hwh
  have hf := analyzeFrequencyDomain_degenerate [] w h hwh'
  have hc := detectCompressionArtifacts_degenerate [] w h hwh'
  have ht : analyzeTextureConsistency [] w h = 0.2 := by
    apply analyzeTextureConsistency_noRegions
    rcases hwh' with rfl | rfl
    · exact Or.inl (by norm_num)
    · exact Or.inr (by norm_num)
  have hcol := detectColorAnomalies_nil
  have hraw : confidenceRaw [] w h = 8 := by
    rw [confidenceRaw, combinedScore, hf, hc, ht, hcol,
      weightFrequency, weightCompression, weightTexture, weightColor]
    norm_num
  rw [analyzeImageForDeepfake_eq, hraw, hf, hc, ht, hcol]
  simp only [DeepfakeAnalysisResult.mk.injEq, AnalysisDetails.mk.injEq]
  refine ⟨?_, ?_, ?_, ?_, ?_, ?_, ?_⟩
  · rw [decide_eq_false_iff_not]
    norm_num
  · norm_num [roundQ, Int.floor_eq_iff]
  · rw [if_neg (by norm_num), if_neg (by norm_num)]
  · norm_num [roundQ, Int.floor_eq_iff]
  · norm_num [roundQ, Int.floor_eq_iff]
  · norm_num [roundQ, Int.floor_eq_iff]
  · norm_num [roundQ, Int.floor_eq_iff]

/-- C2 (amended): a zero-area image yields Frequency and Compression scores
`0`, but Texture and Color scores `0.2` each (the empty region list and the
empty sample list both take their degenerate `+0.2` branches); the engine
still returns a valid low-confidence result: confidence `8`, `riskLevel`
low, `isFake` false. -/
theorem claim2_zero_area_amended (w h : ℕ) (hwh : w * h = 0) :
    analyzeImageForDeepfake [] w h =
      ⟨false, 8, RiskLevel.low, ⟨0, 0, 20, 20⟩⟩ :=
  analyze_empty w h hwh

/-- Witness for C2 (amended) at the concrete zero-area geometry `0×5`. -/
theorem claim2_witness :
    (0 * 5 = 0) ∧
    analyzeImageForDeepfake [] 0 5 =
      ⟨false, 8, RiskLevel.low, ⟨0, 0, 20, 20⟩⟩ :=
  ⟨rfl, claim2_zero_area_amended 0 5 rfl⟩

/-- C2 counterexample: for the zero-area image the texture and color scores
are `0.2` (reported as `20`), not `0` — refuting "every one of the four
analyzer scores is 0". -/
theorem claim2_counterexample :
    (analyzeImageForDeepfake [] 0 0).details.textureInconsistency = 20 ∧
    (analyzeImageForDeepfake [] 0 0).details.colorAnomalies = 20 ∧
    (20 : ℤ) ≠ 0 := by
  rw [analyze_empty 0 0 rfl]
  exact ⟨rfl, rfl, by norm_num⟩

/-! ### C1, C3, C6: uniform images -/

/-- The uniform 256×256 image saturates the frequency score: all 31×31
scanned blocks fire. -/
lemma uniform256Freq :
    analyzeFrequencyDomain (uniformPixels 256 256 128) 256 256 = 1 := by
  rw [analyzeFrequencyDomain_uniform]
  have hlen : (stride0 8 (256 - 8)).length = 31 := by simp [stride0]
  rw [hlen, min_eq_left (by norm_num)]

/-- The uniform 256×256 image saturates the texture score. -/
lemma uniform256Texture :
    analyzeTextureConsistency (uniformPixels 256 256 128) 256 256 = 1 := by
  rw [analyzeTextureConsistency_uniform]
  have hlen : (stride0 64 (256 - 64)).length = 3 := by simp [stride0]
  rw [hlen, min_eq_left (by norm_num)]

/-- The full result record for the uniform 256×256 image of
`(128,128,128,255)` in the exact-arithmetic embedding.  The `confidence` and
`colorAnomalies` fields are the two where exact and binary64 arithmetic part
ways (`63`/`20` here versus `65`/`30` in the program, whose inexactly
accumulated float mean makes the constant channels correlate at `1.0`); the
claim theorems below quote only components on which the two semantics
agree. -/
lemma uniform256_result :
    analyzeImageForDeepfake (uniformPixels 256 256 128) 256 256 =
      ⟨true, 63, RiskLevel.medium, ⟨100, 0, 100, 20⟩⟩ := by
  have hf := uniform256Freq
  have hc := detectCompressionArtifacts_uniform 256 256 128
  have ht := uniform256Texture
  have hcol := detectColorAnomalies_uniform 256 256 128
  have hraw : confidenceRaw (uniformPixels 256 256 128) 256 256 = 63 := by
    rw [confidenceRaw, combinedScore, hf, hc, ht, hcol,
      weightFrequency, weightCompression, weightTexture, weightColor,
      max_eq_right (by norm_num), min_eq_right (by norm_num)]
    norm_num
  rw [analyzeImageForDeepfake_eq, hraw, hf, hc, ht, hcol]
  simp only [DeepfakeAnalysisResult.mk.injEq, AnalysisDetails.mk.injEq]
  refine ⟨?_, ?_, ?_, ?_, ?_, ?_, ?_⟩
  · rw [decide_eq_true_eq]
    norm_num
  · norm_num [roundQ, Int.floor_eq_iff]
  · rw [if_neg (by norm_num), if_pos (by norm_num)]
  · norm_num [roundQ, Int.floor_eq_iff]
  · norm_num [roundQ, Int.floor_eq_iff]
  · norm_num [roundQ, Int.floor_eq_iff]
  · norm_num [roundQ, Int.floor_eq_iff]

/-- C1 (amended): for the uniform 256×256 image of `(128,128,128,255)` the
Frequency-Pattern and Texture-Consistency scores saturate to `1`
(`frequencyAnomaly` and `textureInconsistency` details both `100`),
compression contributes `0`, the image is flagged fake, and `riskLevel` is
medium — not high.  (The `colorAnomalies` detail is the one part of the
scenario that hinges on binary64 rounding of the constant channels' mean —
the program reports `30` and confidence `65` — so the color and confidence
values are left out of the quoted fields; every field stated here holds in
both semantics, the confidence being `63` exactly and `64.5` in binary64,
both inside the medium band `(40, 70]` and above the fake threshold
`50`.) -/
theorem claim1_uniform256_amended :
    analyzeFrequencyDomain (uniformPixels 256 256 128) 256 256 = 1 ∧
    detectCompressionArtifacts (uniformPixels 256 256 128) 256 256 = 0 ∧
    analyzeTextureConsistency (uniformPixels 256 256 128) 256 256 = 1 ∧
    (analyzeImageForDeepfake (uniformPixels 256 256 128) 256 256).details.frequencyAnomaly
      = 100 ∧
    (analyzeImageForDeepfake (uniformPixels 256 256 128) 256 256).details.compressionArtifacts
      = 0 ∧
    (analyzeImageForDeepfake (uniformPixels 256 256 128) 256 256).details.textureInconsistency
      = 100 ∧
    (analyzeImageForDeepfake (uniformPixels 256 256 128) 256 256).isFake = true ∧
    (analyzeImageForDeepfake (uniformPixels 256 256 128) 256 256).riskLevel =
      RiskLevel.medium := by
  refine ⟨uniform256Freq, detectCompressionArtifacts_uniform 256 256 128,
    uniform256Texture, ?_, ?_, ?_, ?_, ?_⟩ <;> rw [uniform256_result]

/-- C1 counterexample: the uniform 256×256 image of `(128,128,128,255)`
classifies as medium, not high — its clamped confidence lies inside the
medium band `(40, 70]` in exact arithmetic (`63`) just as in the program's
binary64 arithmetic (`64.5`). -/
theorem claim1_counterexample :
    (analyzeImageForDeepfake (uniformPixels 256 256 128) 256 256).riskLevel =
      RiskLevel.medium ∧
    RiskLevel.medium ≠ RiskLevel.high := by
  rw [uniform256_result]
  exact ⟨rfl, by decide⟩

/-! ### C3: an alternating image whose raw confidence lands in (40, 40.5) -/

/-- Both base colors have the same luma (`120.704/255`). -/
lemma lumaVal_altFun (x y : ℕ) : lumaVal (altFun x y) = lumaVal altA := by
  unfold altFun
  split_ifs with h
  · norm_num [lumaVal, altA, altB]
  · rfl

lemma alt40Freq : analyzeFrequencyDomain alt40Pixels 40 184 = 0.88 := by
  have hval : ∀ i, i < 40 * 184 → (lumaOf alt40Pixels).getD i 0 = lumaVal altA := by
    intro i hi
    rw [alt40Pixels, lumaOf_pixelsOfFun_getD 40 184 altFun i hi, lumaVal_altFun]
  rw [analyzeFrequencyDomain_constLuma _ 40 184 (lumaVal altA) hval]
  have hlen1 : (stride0 8 (184 - 8)).length = 22 := by simp [stride0]
  have hlen2 : (stride0 8 (40 - 8)).length = 4 := by simp [stride0]
  rw [hlen1, hlen2, min_eq_right (by norm_num)]
  norm_num

lemma alt40Comp : detectCompressionArtifacts alt40Pixels 40 184 = 0 := by
  apply detectCompressionArtifacts_constGray _ 40 184 (lumaVal altA)
  intro i hi
  rw [grayOf_length, alt40Pixels, pixelsOfFun_length] at hi
  rw [alt40Pixels, grayOf_pixelsOfFun_getD 40 184 altFun i (by omega),
    ← lumaVal_eq_grayVal, lumaVal_altFun]

lemma alt40Texture : analyzeTextureConsistency alt40Pixels 40 184 = 0.2 :=
  analyzeTextureConsistency_noRegions _ 40 184 (Or.inl (by norm_num))

/-- The sampled pixels of the 40×184 image follow the alternating pattern by
sample-index parity (the width is even, so column parity is index parity). -/
lemma alt40_hpix : ∀ i, i < 1000 →
    alt40Pixels.getD (4 * i) 0 = (if i % 2 = 1 then 129 else 128) ∧
    alt40Pixels.getD (4 * i + 1) 0 = (if i % 2 = 1 then 97 else 128) ∧
    alt40Pixels.getD (4 * i + 2) 0 = (if i % 2 = 1 then 221 else 64) := by
  intro i hi
  have hip : i < 40 * 184 := by omega
  have h0 : alt40Pixels.getD (4 * i) 0 = (altFun (i % 40) (i / 40)).1 := by
    rw [alt40Pixels]
    simpa using pixelsOfFun_getD 40 184 altFun i 0 0 hip (by norm_num)
  have h1 : alt40Pixels.getD (4 * i + 1) 0 = (altFun (i % 40) (i / 40)).2.1 := by
    rw [alt40Pixels]
    simpa using pixelsOfFun_getD 40 184 altFun i 1 0 hip (by norm_num)
  have h2 : alt40Pixels.getD (4 * i + 2) 0 = (altFun (i % 40) (i / 40)).2.2 := by
    rw [alt40Pixels]
    simpa using pixelsOfFun_getD 40 184 altFun i 2 0 hip (by norm_num)
  have hm : (i % 40) % 2 = i % 2 := by omega
  rcases Nat.mod_two_eq_zero_or_one i with hp | hp <;>
    rw [h0, h1, h2] <;>
    simp [altFun, hm, hp, altA, altB]

lemma alt40Color : detectColorAnomalies alt40Pixels = 0.3 := by
  apply detectColorAnomalies_altPattern _ _ alt40_hpix
  rw [alt40Pixels, pixelsOfFun_length]
  decide

/-- The full result for the 40×184 alternating image: raw confidence
`40.3 ∈ (40, 40.5)`, so the rounded field is `40` while the classification
is medium. -/
lemma alt40_result :
    analyzeImageForDeepfake alt40Pixels 40 184 =
      ⟨false, 40, RiskLevel.medium, ⟨88, 0, 20, 30⟩⟩ := by
  have hf := alt40Freq
  have hc := alt40Comp
  have ht := alt40Texture
  have hcol := alt40Color
  have hraw : confidenceRaw alt40Pixels 40 184 = 40.3 := by
    rw [confidenceRaw, combinedScore, hf, hc, ht, hcol,
      weightFrequency, weightCompression, weightTexture, weightColor,
      max_eq_right (by norm_num), min_eq_right (by norm_num)]
    norm_num
  rw [analyzeImageForDeepfake_eq, hraw, hf, hc, ht, hcol]
  simp only [DeepfakeAnalysisResult.mk.injEq, AnalysisDetails.mk.injEq]
  refine ⟨?_, ?_, ?_, ?_, ?_, ?_, ?_⟩
  · rw [decide_eq_false_iff_not]
    norm_num
  · norm_num [roundQ, Int.floor_eq_iff]
  · rw [if_neg (by norm_num), if_pos (by norm_num)]
  · norm_num [roundQ, Int.floor_eq_iff]
  · norm_num [roundQ, Int.floor_eq_iff]
  · norm_num [roundQ, Int.floor_eq_iff]
  · norm_num [roundQ, Int.floor_eq_iff]

/-- C3 counterexample: the 40×184 alternating image rounds its raw
confidence `40.3` down to the integer field `40`, yet classifies as medium —
so a returned result can have `confidence = 40` without `riskLevel = low`.
(In the program's binary64 arithmetic the same image evaluates to raw
confidence `40.3` up to one ulp, field `40`, medium.) -/
theorem claim3_counterexample :
    (analyzeImageForDeepfake alt40Pixels 40 184).confidence = 40 ∧
    (analyzeImageForDeepfake alt40Pixels 40 184).riskLevel = RiskLevel.medium := by
  rw [alt40_result]
  exact ⟨rfl, rfl⟩

lemma mem_stride0_bound7 {m a : ℕ} (ha : a ∈ stride0 8 (m - 7)) :
    a + 8 ≤ m := by
  obtain ⟨k, hk, rfl⟩ := mem_stride0 ha
  rcases Nat.lt_or_ge m 8 with hm | hm
  · have hz : m - 7 = 0 := by omega
    rw [hz, Nat.div_eq_of_lt (by omega)] at hk
    omega
  · have h2 : (k + 1) * 8 ≤ ((m - 7 + 8 - 1) / 8) * 8 :=
      Nat.mul_le_mul_right 8 (Nat.succ_le_of_lt hk)
    have h3 : (m - 7 + 8 - 1) / 8 = m / 8 := by omega
    have h4 : (m / 8) * 8 ≤ m := Nat.div_mul_le_self _ _
    have h5 : (k + 1) * 8 = k * 8 + 8 := by ring
    omega

lemma frequencyDomainSpec_uniform (w h v : ℕ) :
    frequencyDomainSpec (uniformPixels w h v) w h =
      min 1 (((stride0 8 (h - 7)).length : ℚ) *
        (((stride0 8 (w - 7)).length : ℚ) * 0.1) / 10) := by
  have hlumalen : (lumaOf (uniformPixels w h v)).length = w * h := by
    rw [lumaOf_length, uniformPixels, pixelsOfFun_length]
    omega
  simp only [frequencyDomainSpec]
  congr 1
  rw [sum_map_const_of _ _ (((stride0 8 (w - 7)).length : ℚ) * 0.1)]
  · intro byi hby
    rw [sum_map_const_of _ _ (0.1 : ℚ)]
    intro bxi hbx
    have hby8 := mem_stride0_bound7 hby
    have hbx8 := mem_stride0_bound7 hbx
    have hvar : calculateVariance
        (blockAt (lumaOf (uniformPixels w h v)) w byi bxi 8) = 0 := by
      apply calculateVariance_const _ ((v : ℚ) / 255)
      apply blockAt_const
      · intro y hy x hx
        rw [hlumalen]
        exact rowcol_lt (by omega) (by omega)
      · intro i hi
        exact lumaOf_uniform_getD w h v i (by omega)
    rw [if_pos (Or.inl (by rw [hvar]; norm_num))]

/-- C6 counterexample: for the uniform 16×16 image the source's analyzer
scans only one block (strict `by < height - 8` bound drops the final full
block row/column) and scores `0.01`, while the spec's partition of
`(16/8)·(16/8) = 4` full blocks would score `0.04`. -/
theorem claim6_counterexample :
    analyzeFrequencyDomain (uniformPixels 16 16 128) 16 16 = 1 / 100 ∧
    frequencyDomainSpec (uniformPixels 16 16 128) 16 16 = 4 / 100 ∧
    (1 / 100 : ℚ) ≠ 4 / 100 := by
  refine ⟨?_, ?_, by norm_num⟩
  · rw [analyzeFrequencyDomain_uniform]
    have hlen : (stride0 8 (16 - 8)).length = 1 := by simp [stride0]
    rw [hlen, min_eq_right (by norm_num)]
    norm_num
  · rw [frequencyDomainSpec_uniform]
    have hlen : (stride0 8 (16 - 7)).length = 2 := by simp [stride0]
    rw [hlen, min_eq_right (by norm_num)]
    norm_num

/-- C6 (amended): the analyzer's loops run `by` from `0` while
`by < height - 8` (and likewise `bx`), so for dimensions `8a × 8b` exactly
`(a-1)·(b-1)` blocks are scanned — the trailing partial block row/column
AND the final full one are dropped; on a uniform image every scanned block
fires its `0.1` increment and the score is `min(1, (b-1)(a-1)·0.1/10)`. -/
theorem claim6_amended (a b v : ℕ) :
    (stride0 8 (8 * b - 8)).length = b - 1 ∧
    (stride0 8 (8 * a - 8)).length = a - 1 ∧
    analyzeFrequencyDomain (uniformPixels (8 * a) (8 * b) v) (8 * a) (8 * b) =
      min 1 ((((b - 1 : ℕ)) : ℚ) * ((((a - 1 : ℕ)) : ℚ) * 0.1) / 10) := by
  have hlb : (stride0 8 (8 * b - 8)).length = b - 1 := by
    simp only [stride0, List.length_map, List.length_range]
    omega
  have hla : (stride0 8 (8 * a - 8)).length = a - 1 := by
    simp only [stride0, List.length_map, List.length_range]
    omega
  refine ⟨hlb, hla, ?_⟩
  rw [analyzeFrequencyDomain_uniform, hlb, hla]


/-! ### C4: an alternating image whose raw confidence lands in (50, 50.5) -/

lemma alt16Luma (x y : ℕ) (hx : x < 16) (hy : y < 792) :
    (lumaOf alt16Pixels).getD (y * 16 + x) 0 = lumaVal (alt16Fun x y) := by
  have hidx : y * 16 + x < 16 * 792 := rowcol_lt hy hx
  have hL := lumaOf_pixelsOfFun_getD 16 792 alt16Fun (y * 16 + x) hidx
  have hm : (y * 16 + x) % 16 = x := by omega
  have hd : (y * 16 + x) / 16 = y := by omega
  rw [alt16Pixels, hL, hm, hd]

lemma alt16Gray (x y : ℕ) (hx : x < 16) (hy : y < 792) :
    (grayOf alt16Pixels).getD (y * 16 + x) 0 = lumaVal (alt16Fun x y) := by
  have hidx : y * 16 + x < 16 * 792 := rowcol_lt hy hx
  have hG := grayOf_pixelsOfFun_getD 16 792 alt16Fun (y * 16 + x) hidx
  have hm : (y * 16 + x) % 16 = x := by omega
  have hd : (y * 16 + x) / 16 = y := by omega
  rw [alt16Pixels, hG, hm, hd, lumaVal_eq_grayVal]

lemma alt16Fun_base (x y : ℕ) (hx : x < 8) : alt16Fun x y = altFun x y := by
  unfold alt16Fun
  rw [if_neg]
  rintro ⟨-, h8, -⟩
  omega

lemma fiveRows_mod (y : ℕ) (hy : y ∈ fiveRows) : y % 16 = 0 ∧ 80 ≤ y ∧ y ≤ 400 := by
  simp only [fiveRows, List.mem_cons, List.not_mem_nil, or_false] at hy
  rcases hy with rfl | rfl | rfl | rfl | rfl <;> norm_num

lemma alt16Fun_low (x y : ℕ) (hy : y < 80) : alt16Fun x y = altFun x y := by
  unfold alt16Fun
  rw [if_neg]
  rintro ⟨hmem, -, -⟩
  have := (fiveRows_mod y hmem).2.1
  omega

lemma alt16Fun_off_row (x y : ℕ) (hy : y ∉ fiveRows) :
    alt16Fun x y = altFun x y := by
  unfold alt16Fun
  rw [if_neg]
  rintro ⟨hmem, -, -⟩
  exact hy hmem

lemma sum_map_singleton (f : ℕ → ℚ) (a : ℕ) : (List.map f [a]).sum = f a := by
  simp

lemma alt16Freq : analyzeFrequencyDomain alt16Pixels 16 792 = 0.98 := by
  have hblock : ∀ byi ∈ stride0 8 (792 - 8),
      calculateVariance (blockAt (lumaOf alt16Pixels) 16 byi 0 8) = 0 := by
    intro byi hby
    have hby8 := mem_stride0_bound hby
    apply calculateVariance_const _ (lumaVal altA)
    intro e he
    obtain ⟨y, hy, x, hx, he2⟩ := mem_blockAt he
    rw [he2]
    have hxi : 0 + x = x := by omega
    rw [hxi, alt16Luma x (byi + y) (by omega) (by omega),
      alt16Fun_base x (byi + y) (by omega), lumaVal_altFun]
  have hinner : ∀ byi ∈ stride0 8 (792 - 8),
      ((stride0 8 (16 - 8)).map (fun bxi =>
        if calculateVariance (blockAt (lumaOf alt16Pixels) 16 byi bxi 8) < 0.01 ∨
            checkPeriodicity (blockAt (lumaOf alt16Pixels) 16 byi bxi 8) > 0.7
        then (0.1 : ℚ) else 0)).sum = 0.1 := by
    intro byi hby
    have hbx : stride0 8 (16 - 8) = [0] := rfl
    rw [hbx, sum_map_singleton]
    exact if_pos (Or.inl (by rw [hblock byi hby]; norm_num))
  have hsum := sum_map_const_of (stride0 8 (792 - 8)) _ (0.1 : ℚ) hinner
  simp only [analyzeFrequencyDomain]
  rw [hsum]
  have hlen : (stride0 8 (792 - 8)).length = 98 := by simp [stride0]
  rw [hlen, min_eq_right (by norm_num)]
  norm_num

lemma get?_eq_some_getD (l : List ℚ) (n : ℕ) (h : n < l.length) :
    l.get? n = some (l.getD n 0) := by
  rw [List.get?_eq_getElem?, List.getElem?_eq_getElem h, List.getD_eq_getElem?_getD,
    List.getElem?_eq_getElem h]
  rfl

lemma windowAt_eval (gray : List ℚ) (st : ℕ) (h : st + 3 < gray.length) :
    varianceO (windowAt gray st) = some (calculateVariance
      [gray.getD st 0, gray.getD (st + 1) 0, gray.getD (st + 2) 0,
        gray.getD (st + 3) 0]) := by
  have hw : windowAt gray st =
      [gray.get? (st + 0), gray.get? (st + 1), gray.get? (st + 2),
        gray.get? (st + 3)] := rfl
  have hadd : st + 0 = st := rfl
  rw [hw, hadd, get?_eq_some_getD gray st (by omega),
    get?_eq_some_getD gray (st + 1) (by omega),
    get?_eq_some_getD gray (st + 2) (by omega),
    get?_eq_some_getD gray (st + 3) (by omega)]
  rfl

lemma boundaryHit_eval (gray : List ℚ) (w byi bxi : ℕ)
    (h1 : byi * w + bxi + 3 < gray.length)
    (h2 : (byi + 2) * w + bxi + 3 < gray.length) :
    boundaryHit gray w byi bxi = decide
      (|calculateVariance [gray.getD (byi * w + bxi) 0,
          gray.getD (byi * w + bxi + 1) 0, gray.getD (byi * w + bxi + 2) 0,
          gray.getD (byi * w + bxi + 3) 0] -
        calculateVariance [gray.getD ((byi + 2) * w + bxi) 0,
          gray.getD ((byi + 2) * w + bxi + 1) 0,
          gray.getD ((byi + 2) * w + bxi + 2) 0,
          gray.getD ((byi + 2) * w + bxi + 3) 0]| > 0.05) := by
  simp only [boundaryHit]
  rw [windowAt_eval gray _ h1, windowAt_eval gray _ h2]

lemma var0101 : calculateVariance [0, 1, 0, 1] = 1 / 4 := by
  norm_num [calculateVariance]

lemma var_four_const (c : ℚ) : calculateVariance [c, c, c, c] = 0 := by
  apply calculateVariance_const _ c
  intro x hx
  simp only [List.mem_cons, List.not_mem_nil, or_false] at hx
  rcases hx with h | h | h | h <;> exact h

lemma alt16Fun_special (x byi : ℕ) (hmem : byi ∈ fiveRows) (h8 : 8 ≤ x)
    (h11 : x ≤ 11) :
    alt16Fun x byi = if x % 2 = 1 then (255, 255, 255) else (0, 0, 0) := by
  unfold alt16Fun
  rw [if_pos ⟨hmem, h8, h11⟩]

lemma not_mem_fiveRows_of_mod (n : ℕ) (h : n % 16 ≠ 0) : n ∉ fiveRows := by
  intro hmem
  exact h (fiveRows_mod n hmem).1

lemma alt16Hit : ∀ byi ∈ stride8 792,
    boundaryHit (grayOf alt16Pixels) 16 byi 8 = decide (byi ∈ fiveRows) := by
  intro byi hby
  obtain ⟨hb8, hmod⟩ := mem_stride8_bound hby
  have hlt : byi ≤ 784 := by
    obtain ⟨k, hk, rfl⟩ := mem_stride8 hby
    omega
  have hlen : (grayOf alt16Pixels).length = 12672 := by
    rw [grayOf_length, alt16Pixels, pixelsOfFun_length]
  rw [boundaryHit_eval _ _ _ _ (by rw [hlen]; omega) (by rw [hlen]; omega)]
  have e1 : byi * 16 + 8 + 1 = byi * 16 + 9 := by omega
  have e2 : byi * 16 + 8 + 2 = byi * 16 + 10 := by omega
  have e3 : byi * 16 + 8 + 3 = byi * 16 + 11 := by omega
  have f1 : (byi + 2) * 16 + 8 + 1 = (byi + 2) * 16 + 9 := by omega
  have f2 : (byi + 2) * 16 + 8 + 2 = (byi + 2) * 16 + 10 := by omega
  have f3 : (byi + 2) * 16 + 8 + 3 = (byi + 2) * 16 + 11 := by omega
  rw [e1, e2, e3, f1, f2, f3,
    alt16Gray 8 byi (by norm_num) (by omega),
    alt16Gray 9 byi (by norm_num) (by omega),
    alt16Gray 10 byi (by norm_num) (by omega),
    alt16Gray 11 byi (by norm_num) (by omega),
    alt16Gray 8 (byi + 2) (by norm_num) (by omega),
    alt16Gray 9 (byi + 2) (by norm_num) (by omega),
    alt16Gray 10 (byi + 2) (by norm_num) (by omega),
    alt16Gray 11 (byi + 2) (by norm_num) (by omega)]
  have hnot2 : byi + 2 ∉ fiveRows := by
    apply not_mem_fiveRows_of_mod
    omega
  rw [alt16Fun_off_row 8 (byi + 2) hnot2, alt16Fun_off_row 9 (byi + 2) hnot2,
    alt16Fun_off_row 10 (byi + 2) hnot2, alt16Fun_off_row 11 (byi + 2) hnot2,
    lumaVal_altFun, lumaVal_altFun, lumaVal_altFun, lumaVal_altFun]
  by_cases hmem : byi ∈ fiveRows
  · rw [alt16Fun_special 8 byi hmem (by norm_num) (by norm_num),
      alt16Fun_special 9 byi hmem (by norm_num) (by norm_num),
      alt16Fun_special 10 byi hmem (by norm_num) (by norm_num),
      alt16Fun_special 11 byi hmem (by norm_num) (by norm_num)]
    norm_num only
    simp only [if_true, if_false]
    rw [decide_eq_true hmem, decide_eq_true_eq]
    have hv1 : calculateVariance
        [lumaVal (0, 0, 0), lumaVal (255, 255, 255), lumaVal (0, 0, 0),
          lumaVal (255, 255, 255)] = 1 / 4 := by
      have hz : lumaVal (0, 0, 0) = 0 := by rw [lumaVal_gray]; norm_num
      have ho : lumaVal (255, 255, 255) = 1 := by rw [lumaVal_gray]; norm_num
      rw [hz, ho, var0101]
    have hv2 : calculateVariance [lumaVal altA, lumaVal altA,
        lumaVal altA, lumaVal altA] = 0 :=
      var_four_const _
    rw [hv1, hv2, sub_zero, abs_of_nonneg (by norm_num : (0:ℚ) ≤ 1 / 4)]
    norm_num
  · rw [alt16Fun_off_row 8 byi hmem, alt16Fun_off_row 9 byi hmem,
      alt16Fun_off_row 10 byi hmem, alt16Fun_off_row 11 byi hmem,
      lumaVal_altFun, lumaVal_altFun, lumaVal_altFun, lumaVal_altFun]
    have hv2 : calculateVariance [lumaVal altA, lumaVal altA,
        lumaVal altA, lumaVal altA] = 0 :=
      var_four_const _
    rw [hv2, decide_eq_false hmem, decide_eq_false_iff_not]
    norm_num

lemma alt16Comp : detectCompressionArtifacts alt16Pixels 16 792 = 0.25 := by
  simp only [detectCompressionArtifacts]
  have hinner : ∀ byi ∈ stride8 792,
      ((stride8 16).map (fun bxi =>
        if boundaryHit (grayOf alt16Pixels) 16 byi bxi then (0.05 : ℚ) else 0)).sum =
        (if byi ∈ fiveRows then (0.05 : ℚ) else 0) := by
    intro byi hby
    have hbx : stride8 16 = [8] := rfl
    rw [hbx, sum_map_singleton, alt16Hit byi hby]
    by_cases hmem : byi ∈ fiveRows
    · rw [if_pos hmem, if_pos]
      rw [decide_eq_true hmem]
    · rw [if_neg hmem, if_neg]
      rw [decide_eq_false hmem]
      simp
  have hmap := List.map_congr_left hinner
  rw [hmap]
  have hcount := sum_map_ite_count (stride8 792) (· ∈ fiveRows) (0.05 : ℚ)
  rw [hcount]
  have h5 : (stride8 792).countP (fun k => decide (k ∈ fiveRows)) = 5 := by decide
  rw [h5, min_eq_right (by norm_num)]
  norm_num

/-- The sampled pixels of the 16×792 image follow the alternating pattern:
the first 1000 pixels lie in rows `0..62`, well below the special rows. -/
lemma alt16_hpix : ∀ i, i < 1000 →
    alt16Pixels.getD (4 * i) 0 = (if i % 2 = 1 then 129 else 128) ∧
    alt16Pixels.getD (4 * i + 1) 0 = (if i % 2 = 1 then 97 else 128) ∧
    alt16Pixels.getD (4 * i + 2) 0 = (if i % 2 = 1 then 221 else 64) := by
  intro i hi
  have hip : i < 16 * 792 := by omega
  have hlow : alt16Fun (i % 16) (i / 16) = altFun (i % 16) (i / 16) :=
    alt16Fun_low (i % 16) (i / 16) (by omega)
  have h0 : alt16Pixels.getD (4 * i) 0 = (altFun (i % 16) (i / 16)).1 := by
    rw [alt16Pixels]
    have := pixelsOfFun_getD 16 792 alt16Fun i 0 0 hip (by norm_num)
    simpa [hlow] using this
  have h1 : alt16Pixels.getD (4 * i + 1) 0 = (altFun (i % 16) (i / 16)).2.1 := by
    rw [alt16Pixels]
    have := pixelsOfFun_getD 16 792 alt16Fun i 1 0 hip (by norm_num)
    simpa [hlow] using this
  have h2 : alt16Pixels.getD (4 * i + 2) 0 = (altFun (i % 16) (i / 16)).2.2 := by
    rw [alt16Pixels]
    have := pixelsOfFun_getD 16 792 alt16Fun i 2 0 hip (by norm_num)
    simpa [hlow] using this
  have hm : (i % 16) % 2 = i % 2 := by omega
  rcases Nat.mod_two_eq_zero_or_one i with hp | hp <;>
    rw [h0, h1, h2] <;>
    simp [altFun, hm, hp, altA, altB]

lemma alt16Color : detectColorAnomalies alt16Pixels = 0.3 := by
  apply detectColorAnomalies_altPattern _ _ alt16_hpix
  rw [alt16Pixels, pixelsOfFun_length]
  decide

lemma alt16Texture : analyzeTextureConsistency alt16Pixels 16 792 = 0.2 :=
  analyzeTextureConsistency_noRegions alt16Pixels 16 792 (Or.inl (by norm_num))

/-- The full result for the 16×792 alternating image: raw confidence
`50.05 ∈ (50, 50.5)`, so `isFake` is true while the rounded field is `50`. -/
lemma alt16_result :
    analyzeImageForDeepfake alt16Pixels 16 792 =
      ⟨true, 50, RiskLevel.medium, ⟨98, 25, 20, 30⟩⟩ := by
  have hf := alt16Freq
  have hc := alt16Comp
  have ht := alt16Texture
  have hcol := alt16Color
  have hraw : confidenceRaw alt16Pixels 16 792 = 50.05 := by
    rw [confidenceRaw, combinedScore, hf, hc, ht, hcol,
      weightFrequency, weightCompression, weightTexture, weightColor,
      max_eq_right (by norm_num), min_eq_right (by norm_num)]
    norm_num
  rw [analyzeImageForDeepfake_eq, hraw, hf, hc, ht, hcol]
  simp only [DeepfakeAnalysisResult.mk.injEq, AnalysisDetails.mk.injEq]
  refine ⟨?_, ?_, ?_, ?_, ?_, ?_, ?_⟩
  · rw [decide_eq_true_eq]
    norm_num
  · norm_num [roundQ, Int.floor_eq_iff]
  · rw [if_neg (by norm_num), if_pos (by norm_num)]
  · norm_num [roundQ, Int.floor_eq_iff]
  · norm_num [roundQ, Int.floor_eq_iff]
  · norm_num [roundQ, Int.floor_eq_iff]
  · norm_num [roundQ, Int.floor_eq_iff]

/-- C4 counterexample: the 16×792 alternating image is flagged fake while
its returned integer confidence field is exactly `50`, refuting
"isFake ↔ confidence field > 50".  (In the program's binary64 arithmetic the
same image evaluates to raw confidence `50.05` up to one ulp: `isFake` true,
field `50`.) -/
theorem claim4_counterexample :
    (analyzeImageForDeepfake alt16Pixels 16 792).isFake = true ∧
    ¬((analyzeImageForDeepfake alt16Pixels 16 792).confidence > 50) := by
  rw [alt16_result]
  exact ⟨rfl, by norm_num⟩

/-! ### C8: noise images score zero frequency anomaly -/

lemma analyzeFrequencyDomain_zero (pixels : List ℕ) (w h : ℕ)
    (hyp : ∀ byi ∈ stride0 8 (h - 8), ∀ bxi ∈ stride0 8 (w - 8),
      ¬(calculateVariance (blockAt (lumaOf pixels) w byi bxi 8) < 0.01) ∧
      ¬(checkPeriodicity (blockAt (lumaOf pixels) w byi bxi 8) > 0.7)) :
    analyzeFrequencyDomain pixels w h = 0 := by
  simp only [analyzeFrequencyDomain]
  have hz : ((stride0 8 (h - 8)).map (fun byi =>
      ((stride0 8 (w - 8)).map (fun bxi =>
        if calculateVariance (blockAt (lumaOf pixels) w byi bxi 8) < 0.01 ∨
            checkPeriodicity (blockAt (lumaOf pixels) w byi bxi 8) > 0.7
        then (0.1 : ℚ) else 0)).sum)).sum = 0 := by
    rw [sum_map_const_of _ _ 0]
    · ring
    · intro byi hby
      rw [sum_map_const_of _ _ 0]
      · ring
      · intro bxi hbx
        obtain ⟨h1, h2⟩ := hyp byi hby bxi hbx
        exact if_neg (by
          rintro (hv | hp)
          exacts [h1 hv, h2 hp])
  rw [hz]
  norm_num

lemma pair_sq (a b mu : ℚ) : (a - b) ^ 2 / 2 ≤ (a - mu) ^ 2 + (b - mu) ^ 2 := by
  nlinarith [sq_nonneg (a + b - 2 * mu)]

lemma sum_range_pair (f : ℕ → ℚ) : ∀ n : ℕ,
    ((List.range (2 * n)).map f).sum =
      ((List.range n).map (fun t => f (2 * t) + f (2 * t + 1))).sum := by
  intro n
  induction n with
  | zero => rfl
  | succ n ih =>
    have h2 : 2 * (n + 1) = (2 * n + 1) + 1 := by ring
    rw [h2, List.range_succ, List.map_append, List.sum_append,
      List.range_succ, List.map_append, List.sum_append,
      List.range_succ, List.map_append, List.sum_append, ih,
      sum_map_singleton, sum_map_singleton, sum_map_singleton]
    have h3 : 2 * n + 1 = 2 * n + 1 := rfl
    ring

lemma byte_gap_sq (a b : ℕ) (h : a + 52 ≤ b ∨ b + 52 ≤ a) :
    ((52 : ℚ) / 255) ^ 2 ≤ ((a : ℚ) / 255 - (b : ℚ) / 255) ^ 2 := by
  rcases h with h | h
  · have hc : (a : ℚ) + 52 ≤ (b : ℚ) := by exact_mod_cast h
    nlinarith
  · have hc : (b : ℚ) + 52 ≤ (a : ℚ) := by exact_mod_cast h
    nlinarith

lemma variance_lower (g : ℕ → ℕ)
    (hd : ∀ t, t < 32 → g (2 * t) + 52 ≤ g (2 * t + 1) ∨
      g (2 * t + 1) + 52 ≤ g (2 * t)) :
    ¬(calculateVariance ((List.range 64).map (fun i => ((g i : ℕ) : ℚ) / 255))
      < 0.01) := by
  set fn : ℕ → ℚ := fun i => ((g i : ℕ) : ℚ) / 255 with hfn
  set vals := (List.range 64).map fn with hvals
  have hlen : vals.length = 64 := by
    rw [hvals, List.length_map, List.length_range]
  set mu := vals.sum / (vals.length : ℚ) with hmu
  have hvar : calculateVariance vals =
      (vals.map (fun v => (v - mu) ^ 2)).sum / (vals.length : ℚ) := by
    rw [calculateVariance, if_neg (by rw [hlen]; norm_num)]
  have hcomp : vals.map (fun v => (v - mu) ^ 2) =
      (List.range 64).map (fun i => (fn i - mu) ^ 2) := by
    rw [hvals, List.map_map]
    rfl
  have hpair : ((List.range 64).map (fun i => (fn i - mu) ^ 2)).sum =
      ((List.range 32).map (fun t =>
        (fn (2 * t) - mu) ^ 2 + (fn (2 * t + 1) - mu) ^ 2)).sum := by
    have h64 : (64 : ℕ) = 2 * 32 := rfl
    rw [h64, sum_range_pair (fun i => (fn i - mu) ^ 2) 32]
  have hterm : ∀ t ∈ List.range 32,
      ((52 : ℚ) / 255) ^ 2 / 2 ≤ (fn (2 * t) - mu) ^ 2 + (fn (2 * t + 1) - mu) ^ 2 := by
    intro t ht
    simp only [List.mem_range] at ht
    have hgap := byte_gap_sq (g (2 * t)) (g (2 * t + 1)) (hd t ht)
    have hps := pair_sq (fn (2 * t)) (fn (2 * t + 1)) mu
    have : ((52 : ℚ) / 255) ^ 2 / 2 ≤ (fn (2 * t) - fn (2 * t + 1)) ^ 2 / 2 := by
      rw [hfn]
      linarith
    linarith
  have hsumlb : ((List.range 32).map (fun _ => ((52 : ℚ) / 255) ^ 2 / 2)).sum ≤
      ((List.range 32).map (fun t =>
        (fn (2 * t) - mu) ^ 2 + (fn (2 * t + 1) - mu) ^ 2)).sum :=
    List.sum_le_sum hterm
  have hconst : ((List.range 32).map (fun _ => ((52 : ℚ) / 255) ^ 2 / 2)).sum =
      32 * (((52 : ℚ) / 255) ^ 2 / 2) := by
    rw [sum_map_const_of _ _ (((52 : ℚ) / 255) ^ 2 / 2) (fun _ _ => rfl),
      List.length_range]
    norm_num
  rw [not_lt, hvar, hcomp, hpair, hlen]
  have hfinal : 32 * (((52 : ℚ) / 255) ^ 2 / 2) / 64 = 676 / 65025 := by norm_num
  have h001 : (0.01 : ℚ) ≤ 676 / 65025 := by norm_num
  calc (0.01 : ℚ) ≤ 676 / 65025 := h001
    _ = 32 * (((52 : ℚ) / 255) ^ 2 / 2) / 64 := hfinal.symm
    _ ≤ ((List.range 32).map (fun t =>
        (fn (2 * t) - mu) ^ 2 + (fn (2 * t + 1) - mu) ^ 2)).sum / 64 := by
        have h2 : 32 * (((52 : ℚ) / 255) ^ 2 / 2) ≤
            ((List.range 32).map (fun t =>
              (fn (2 * t) - mu) ^ 2 + (fn (2 * t + 1) - mu) ^ 2)).sum := by
          rw [← hconst]
          exact hsumlb
        exact (div_le_div_right (by norm_num)).mpr h2
    _ = _ := by norm_num

lemma byteDiff_lt_iff (a b : ℕ) :
    (|((a : ℕ) : ℚ) / 255 - ((b : ℕ) : ℚ) / 255| < 0.05) ↔
      (a < b + 13 ∧ b < a + 13) := by
  rw [abs_lt]
  constructor
  · rintro ⟨h1, h2⟩
    constructor
    · by_contra hab
      push_neg at hab
      have hc : (b : ℚ) + 13 ≤ (a : ℚ) := by exact_mod_cast hab
      have : (1 : ℚ) / 20 < (a : ℚ) / 255 - (b : ℚ) / 255 := by linarith
      norm_num at h2
      linarith
    · by_contra hab
      push_neg at hab
      have hc : (a : ℚ) + 13 ≤ (b : ℚ) := by exact_mod_cast hab
      have : (a : ℚ) / 255 - (b : ℚ) / 255 < -(1 / 20) := by linarith
      norm_num at h1
      linarith
  · rintro ⟨h1, h2⟩
    have hc1 : (a : ℚ) ≤ (b : ℚ) + 12 := by exact_mod_cast (by omega : a ≤ b + 12)
    have hc2 : (b : ℚ) ≤ (a : ℚ) + 12 := by exact_mod_cast (by omega : b ≤ a + 12)
    constructor
    · norm_num
      linarith
    · norm_num
      linarith

lemma periodMatches_map_range (g : ℕ → ℕ) (p : ℕ) (hp : 0 < p) :
    periodMatches ((List.range 64).map (fun i => ((g i : ℕ) : ℚ) / 255)) p =
      ((List.range (64 - p)).map (· + p)).countP
        (fun i => decide (g i < g (i - p) + 13 ∧ g (i - p) < g i + 13)) := by
  unfold periodMatches
  rw [List.length_map, List.length_range]
  apply List.countP_congr
  intro i hi
  simp only [List.mem_map, List.mem_range] at hi
  obtain ⟨k, hk, hik⟩ := hi
  have hi64 : i < 64 := by omega
  have hip : i - p < 64 := by omega
  rw [getD_map_range _ _ _ _ hi64, getD_map_range _ _ _ _ hip]
  simp only [decide_eq_true_eq]
  exact byteDiff_lt_iff (g i) (g (i - p))

lemma ratio_not_gt (m d : ℕ) (hd : 0 < d) (hb : m * 5 ≤ d * 4) :
    ¬((m : ℚ) / (d : ℚ) > 0.8) := by
  rw [gt_iff_lt, not_lt, div_le_iff (by positivity)]
  have hcast : (m : ℚ) * 5 ≤ (d : ℚ) * 4 := by exact_mod_cast hb
  norm_num
  linarith

lemma foldl_period_zero (values : List ℚ) (ps : List ℕ) :
    (∀ p ∈ ps, ¬((periodMatches values p : ℚ) /
      ((values.length : ℚ) - (p : ℚ)) > 0.8)) →
    ps.foldl (fun (score : ℚ) period =>
      if (periodMatches values period : ℚ) /
          ((values.length : ℚ) - (period : ℚ)) > 0.8
      then max score 0.9 else score) (0 : ℚ) = 0 := by
  induction ps with
  | nil => intro _; rfl
  | cons p rest ih =>
    intro h
    have hp := h p (by simp)
    simp only [List.foldl_cons, if_neg hp]
    exact ih (fun q hq => h q (by simp [hq]))

lemma noiseVariance : ¬(calculateVariance noiseBlockList < 0.01) :=
  variance_lower noiseByte (by decide)

lemma noisePeriodicity : checkPeriodicity noiseBlockList = 0 := by
  have hlen : noiseBlockList.length = 64 := by
    rw [noiseBlockList, List.length_map, List.length_range]
  rw [checkPeriodicity, if_neg (by rw [hlen]; norm_num)]
  apply foldl_period_zero
  intro p hp
  simp only [List.mem_map, List.mem_range, hlen] at hp
  obtain ⟨k, hk, hkp⟩ := hp
  have hp1 : 0 < p := by omega
  have hp32 : p ≤ 32 := by omega
  rw [hlen]
  rw [noiseBlockList, periodMatches_map_range noiseByte p hp1]
  have hcast : (((64 : ℕ)) : ℚ) - (p : ℚ) = (((64 - p : ℕ)) : ℚ) := by
    rw [Nat.cast_sub (by omega)]
  rw [hcast]
  apply ratio_not_gt _ _ (by omega)
  interval_cases p <;> decide

lemma noiseLuma (x y : ℕ) (hx : x < 16) (hy : y < 16) :
    (lumaOf noisePixels).getD (y * 16 + x) 0 = lumaVal (noiseFun x y) := by
  have hidx : y * 16 + x < 16 * 16 := rowcol_lt hy hx
  have hL := lumaOf_pixelsOfFun_getD 16 16 noiseFun (y * 16 + x) hidx
  have hm : (y * 16 + x) % 16 = x := by omega
  have hd : (y * 16 + x) / 16 = y := by omega
  rw [noisePixels, hL, hm, hd]

lemma noiseGray (x y : ℕ) (hx : x < 16) (hy : y < 16) :
    (grayOf noisePixels).getD (y * 16 + x) 0 = lumaVal (noiseFun x y) := by
  have hidx : y * 16 + x < 16 * 16 := rowcol_lt hy hx
  have hG := grayOf_pixelsOfFun_getD 16 16 noiseFun (y * 16 + x) hidx
  have hm : (y * 16 + x) % 16 = x := by omega
  have hd : (y * 16 + x) / 16 = y := by omega
  rw [noisePixels, hG, hm, hd, lumaVal_eq_grayVal]

lemma blockAt_length (grid : List ℚ) (w a b s : ℕ) :
    (blockAt grid w a b s).length = s * s := by
  unfold blockAt
  exact length_flatMap_range _ s (fun _ => by simp) s

lemma blockAt_getD (grid : List ℚ) (w a b s i : ℕ) (hi : i < s * s) :
    (blockAt grid w a b s).getD i 0 =
      grid.getD ((a + i / s) * w + (b + i % s)) 0 := by
  unfold blockAt
  have hs : 0 < s := by
    rcases Nat.eq_zero_or_pos s with h | h
    · subst h; omega
    · exact h
  have hdiv : i / s < s := Nat.div_lt_of_lt_mul (by omega)
  have hmod : i % s < s := Nat.mod_lt _ hs
  have hdecomp : s * (i / s) + i % s = i := Nat.div_add_mod i s
  have hkey := flatMap_range_getD
    (fun y => (List.range s).map (fun x => grid.getD ((a + y) * w + (b + x)) 0))
    s (fun _ => by simp) s (i / s) (i % s) hdiv hmod 0
  rw [hdecomp] at hkey
  rw [hkey, getD_map_range _ _ _ _ hmod]

lemma noiseBlockEq : blockAt (lumaOf noisePixels) 16 0 0 8 = noiseBlockList := by
  apply list_eq_of_getD
  · rw [blockAt_length, noiseBlockList, List.length_map, List.length_range]
  · intro i hi
    rw [blockAt_length] at hi
    rw [blockAt_getD _ _ _ _ _ _ hi]
    have hx : i % 8 < 8 := Nat.mod_lt _ (by norm_num)
    have hy : i / 8 < 8 := Nat.div_lt_of_lt_mul (by omega)
    have hz0 : 0 + i / 8 = i / 8 := by omega
    have hz1 : 0 + i % 8 = i % 8 := by omega
    rw [hz0, hz1, noiseLuma (i % 8) (i / 8) (by omega) (by omega)]
    have hnf : noiseFun (i % 8) (i / 8) =
        (noiseByte i, noiseByte i, noiseByte i) := by
      unfold noiseFun
      rw [if_pos ⟨hx, hy⟩]
      have : i / 8 * 8 + i % 8 = i := by omega
      rw [this]
    rw [hnf, lumaVal_gray, noiseBlockList, getD_map_range _ _ _ _ (by omega : i < 64)]

lemma noiseHyp : ∀ byi ∈ stride0 8 (16 - 8), ∀ bxi ∈ stride0 8 (16 - 8),
    ¬(calculateVariance (blockAt (lumaOf noisePixels) 16 byi bxi 8) < 0.01) ∧
    ¬(checkPeriodicity (blockAt (lumaOf noisePixels) 16 byi bxi 8) > 0.7) := by
  intro byi hby bxi hbx
  have h0 : stride0 8 (16 - 8) = [0] := rfl
  rw [h0] at hby hbx
  simp only [List.mem_cons, List.not_mem_nil, or_false] at hby hbx
  subst hby
  subst hbx
  rw [noiseBlockEq]
  refine ⟨noiseVariance, ?_⟩
  rw [noisePeriodicity]
  norm_num

lemma noiseFun_base (x y : ℕ) (hx : 8 ≤ x) : noiseFun x y = (128, 128, 128) := by
  unfold noiseFun
  rw [if_neg]
  rintro ⟨h8, -⟩
  omega

lemma noiseComp : detectCompressionArtifacts noisePixels 16 16 = 0 := by
  simp only [detectCompressionArtifacts]
  have hlen : (grayOf noisePixels).length = 256 := by
    rw [grayOf_length, noisePixels, pixelsOfFun_length]
  have hbh : boundaryHit (grayOf noisePixels) 16 8 8 = false := by
    rw [boundaryHit_eval _ _ _ _ (by rw [hlen]; omega) (by rw [hlen]; omega)]
    have e1 : (8 : ℕ) * 16 + 8 + 1 = 8 * 16 + 9 := by omega
    have e2 : (8 : ℕ) * 16 + 8 + 2 = 8 * 16 + 10 := by omega
    have e3 : (8 : ℕ) * 16 + 8 + 3 = 8 * 16 + 11 := by omega
    have f1 : ((8 : ℕ) + 2) * 16 + 8 + 1 = (8 + 2) * 16 + 9 := by omega
    have f2 : ((8 : ℕ) + 2) * 16 + 8 + 2 = (8 + 2) * 16 + 10 := by omega
    have f3 : ((8 : ℕ) + 2) * 16 + 8 + 3 = (8 + 2) * 16 + 11 := by omega
    rw [e1, e2, e3, f1, f2, f3,
      noiseGray 8 8 (by norm_num) (by norm_num),
      noiseGray 9 8 (by norm_num) (by norm_num),
      noiseGray 10 8 (by norm_num) (by norm_num),
      noiseGray 11 8 (by norm_num) (by norm_num),
      noiseGray 8 (8 + 2) (by norm_num) (by norm_num),
      noiseGray 9 (8 + 2) (by norm_num) (by norm_num),
      noiseGray 10 (8 + 2) (by norm_num) (by norm_num),
      noiseGray 11 (8 + 2) (by norm_num) (by norm_num),
      noiseFun_base 8 8 (by norm_num), noiseFun_base 9 8 (by norm_num),
      noiseFun_base 10 8 (by norm_num), noiseFun_base 11 8 (by norm_num),
      noiseFun_base 8 (8 + 2) (by norm_num), noiseFun_base 9 (8 + 2) (by norm_num),
      noiseFun_base 10 (8 + 2) (by norm_num), noiseFun_base 11 (8 + 2) (by norm_num),
      var_four_const]
    rw [decide_eq_false_iff_not]
    norm_num
  have hinner : ∀ byi ∈ stride8 16,
      ((stride8 16).map (fun bxi =>
        if boundaryHit (grayOf noisePixels) 16 byi bxi then (0.05 : ℚ) else 0)).sum
        = 0 := by
    intro byi hby
    have h8 : stride8 16 = [8] := rfl
    rw [h8] at hby ⊢
    simp only [List.mem_cons, List.not_mem_nil, or_false] at hby
    subst hby
    rw [sum_map_singleton, hbh]
    simp
  have hz := sum_map_const_of (stride8 16) _ 0 hinner
  rw [hz]
  norm_num

lemma noiseRisk :
    (analyzeImageForDeepfake noisePixels 16 16).riskLevel = RiskLevel.low := by
  have hf : analyzeFrequencyDomain noisePixels 16 16 = 0 :=
    analyzeFrequencyDomain_zero noisePixels 16 16 noiseHyp
  have hc := noiseComp
  have ht : analyzeTextureConsistency noisePixels 16 16 = 0.2 :=
    analyzeTextureConsistency_noRegions _ 16 16 (Or.inl (by norm_num))
  have hcolb := detectColorAnomalies_bounds noisePixels
  have hraw : confidenceRaw noisePixels 16 16 ≤ 20 := by
    rw [confidenceRaw, combinedScore, hf, hc, ht,
      weightFrequency, weightCompression, weightTexture, weightColor]
    have hx : ((0 : ℚ) * 0.35 + 0 * 0.25 + 0.2 * 0.25 +
        detectColorAnomalies noisePixels * 0.15) * 100 ≤ 20 := by
      nlinarith [hcolb.2]
    exact le_trans (min_le_right _ _) (max_le (by norm_num) hx)
  have hrl : (analyzeImageForDeepfake noisePixels 16 16).riskLevel =
      if confidenceRaw noisePixels 16 16 > 70 then RiskLevel.high
      else if confidenceRaw noisePixels 16 16 > 40 then RiskLevel.medium
      else RiskLevel.low := rfl
  rw [hrl, if_neg (by linarith), if_neg (by linarith)]

/-- C8: if every sampled 8×8 luma block has variance at least `0.01` and
periodicity at most `0.7`, the Frequency-Pattern score is exactly `0`; and
for the §8 noise scenario — a 16×16 image whose single sampled block is
filled with aperiodic high-variance noise — the overall `riskLevel` is
low. -/
theorem claim8_no_anomalous_blocks_zero_score :
    (∀ (pixels : List ℕ) (w h : ℕ),
      (∀ byi ∈ stride0 8 (h - 8), ∀ bxi ∈ stride0 8 (w - 8),
        ¬(calculateVariance (blockAt (lumaOf pixels) w byi bxi 8) < 0.01) ∧
        ¬(checkPeriodicity (blockAt (lumaOf pixels) w byi bxi 8) > 0.7)) →
      analyzeFrequencyDomain pixels w h = 0) ∧
    (analyzeImageForDeepfake noisePixels 16 16).riskLevel = RiskLevel.low :=
  ⟨analyzeFrequencyDomain_zero, noiseRisk⟩

/-- Witness for C8: the noise image satisfies the hypothesis (its single
sampled block has variance `≥ 0.01` and periodicity `0`), and its
Frequency-Pattern score is `0`. -/
theorem claim8_witness :
    (∀ byi ∈ stride0 8 (16 - 8), ∀ bxi ∈ stride0 8 (16 - 8),
      ¬(calculateVariance (blockAt (lumaOf noisePixels) 16 byi bxi 8) < 0.01) ∧
      ¬(checkPeriodicity (blockAt (lumaOf noisePixels) 16 byi bxi 8) > 0.7)) ∧
    analyzeFrequencyDomain noisePixels 16 16 = 0 :=
  ⟨noiseHyp, claim8_no_anomalous_blocks_zero_score.1 noisePixels 16 16 noiseHyp⟩

end Veritas
